import Mathlib

/-!
# Verification of the Player_Ratings report round-trip engine

Shallow embedding of `src/app.py` (Madlittledude/Player_Ratings).

Modelling conventions:
* A Python string is modelled as a `List Char` (`PyStr`); a docx document is
  modelled as the sequence of its paragraphs' text contents, which is exactly
  what `parse_docx_report` consumes via `doc.paragraphs` / `para.text` and
  what `create_docx_report` emits via `add_heading` / `add_paragraph`
  (the embedded chart picture contributes one empty-text paragraph).
* Python floats are modelled as rationals (`ℚ`); all values the program
  serializes are one-decimal values, where rational arithmetic is exact.
  `round(x, 1)` and the `"%.1f"` format are modelled with `round` on ℚ
  (half-to-even differences of binary floats only arise at exact ties,
  which none of the statements below touch).
* A Python dict is modelled as an insertion-ordered association list
  (`assocSet` replaces in place or appends, like dict assignment);
  `str.strip` / `split` / `replace` / `endswith` and the two regexes of
  `parse_docx_report` are implemented character-by-character below.
* Raising code is modelled with `Except PyErr`; `float(...)` on a bad token
  and a failing tuple unpack give `ValueError`, `statistics.mean` on empty
  data gives `StatisticsError`.
-/

abbrev PyStr := List Char

/-- Python `str.lstrip()` (whitespace on the left). -/
def trimL (l : PyStr) : PyStr := l.dropWhile Char.isWhitespace

/-- Python `str.rstrip()` (whitespace on the right). -/
def trimR (l : PyStr) : PyStr := (l.reverse.dropWhile Char.isWhitespace).reverse

/-- Python `str.strip()`: `para.text.strip()` in `parse_docx_report`. -/
def pyStrip (l : PyStr) : PyStr := trimR (trimL l)

/-- Python `str.split(sep)` for a one-character separator, as used for
`.split(";")`, `.split(":")` and `.split("–")` in `parse_docx_report`. -/
def splitOnChar (c : Char) : PyStr → List PyStr
  | [] => [[]]
  | x :: xs =>
    if x = c then [] :: splitOnChar c xs
    else
      match splitOnChar c xs with
      | t :: ts => (x :: t) :: ts
      | [] => [[x]]

/-- Python `sep.join(parts)`, as used for `"; ".join(...)` in
`create_docx_report`. -/
def joinSep (sep : PyStr) : List PyStr → PyStr
  | [] => []
  | t :: ts => t ++ (ts.map (fun u => sep ++ u)).flatten

/-- Worker for `replaceAll`, structurally recursive on a fuel argument
(one unit of fuel per scanned position suffices for a nonempty pattern). -/
def replaceAllGo (pat rep : PyStr) : Nat → PyStr → PyStr
  | _, [] => []
  | 0, s => s
  | fuel + 1, c :: rest =>
    if pat.isPrefixOf (c :: rest) then
      rep ++ replaceAllGo pat rep fuel (rest.drop (pat.length - 1))
    else
      c :: replaceAllGo pat rep fuel rest

/-- Python `str.replace(pat, rep)` (leftmost, non-overlapping), as used for
`text.replace("Stats Report", "")` in `parse_docx_report`. -/
def replaceAll (pat rep s : PyStr) : PyStr := replaceAllGo pat rep s.length s

/-- Numeric value of a digit string (most significant digit first). -/
def digitsVal (l : PyStr) : ℕ := l.foldl (fun a c => 10 * a + (c.toNat - 48)) 0

/-- Worker for `natDigits`; fuel-driven so that it is structurally
recursive (fuel `n` is enough for the digits of `n`). -/
def natDigitsGo : Nat → Nat → PyStr
  | 0, n => [Nat.digitChar (n % 10)]
  | fuel + 1, n =>
    if n < 10 then [Nat.digitChar n]
    else natDigitsGo fuel (n / 10) ++ [Nat.digitChar (n % 10)]

/-- Decimal digit string of a natural number. -/
def natDigits (n : ℕ) : PyStr := natDigitsGo n n

/-!
Rational arithmetic: `Rat.add`, `Rat.mul`, `Rat.inv` are `@[irreducible]`,
so the executable definitions below build their values with `Rat.divInt`
and integer arithmetic instead; the bridge lemmas `qdiv_eq`, `qsum_eq`,
`roundTenths_eq`, `round1_eq`, `decimalVal_eq` (proved in the theorem part
of this file) state that these denote the ordinary field operations.
-/

/-- Exact division of rationals, `qdiv a b = a / b` (see `qdiv_eq`). -/
def qdiv (a b : ℚ) : ℚ := Rat.divInt (a.num * (b.den : ℤ)) ((a.den : ℤ) * b.num)

/-- Addition of rationals, `qadd a b = a + b` (see `qadd_eq`). -/
def qadd (a b : ℚ) : ℚ :=
  Rat.divInt (a.num * (b.den : ℤ) + b.num * (a.den : ℤ)) ((a.den : ℤ) * (b.den : ℤ))

/-- Sum of a list of rationals, `qsum l = l.sum` (see `qsum_eq`). -/
def qsum (l : List ℚ) : ℚ := l.foldr qadd 0

/-- The value `ip + fp / 10 ^ k` of a decimal literal with integer part of
value `ip` and fraction digits of value `fp` (see `decimalVal_eq`). -/
def decimalVal (ip fp : ℕ) (k : ℕ) : ℚ :=
  Rat.divInt ((ip : ℤ) * (10 : ℤ) ^ k + (fp : ℤ)) ((10 : ℤ) ^ k)

/-- Python `float(token)` restricted to the plain decimal grammar
`[sign] digits [. digits]` / `[sign] . digits` (the program only ever
formats such tokens; exotic float literals are irrelevant to the claims),
on an already stripped token: the unsigned part. -/
def parseUnsigned (s : PyStr) : Option ℚ :=
  let ip := s.takeWhile Char.isDigit
  let rest := s.dropWhile Char.isDigit
  if rest = [] then
    if ip = [] then none else some (decimalVal (digitsVal ip) 0 0)
  else if rest.head? = some '.' then
    let fp := rest.tail
    if fp.all Char.isDigit ∧ ¬(ip = [] ∧ fp = []) then
      some (decimalVal (digitsVal ip) (digitsVal fp) fp.length)
    else none
  else none

/-- Python `float(token)` on an already stripped token (`None` = ValueError). -/
def parseFloat (s : PyStr) : Option ℚ :=
  if s.head? = some '-' then (parseUnsigned s.tail).map (fun q => -q)
  else if s.head? = some '+' then parseUnsigned s.tail
  else parseUnsigned s

/-- The `"%.1f"` rendering of `z` tenths (e.g. `fmtTenths (-5) = "-0.5"`). -/
def fmtTenths (z : ℤ) : PyStr :=
  (if z < 0 then ['-'] else []) ++
    natDigits (z.natAbs / 10) ++ '.' :: [Nat.digitChar (z.natAbs % 10)]

/-- The nearest integer to `10 * q` (exactly `round (10 * q)`, see
`roundTenths_eq`), written with integer arithmetic. -/
def roundTenths (q : ℚ) : ℤ := Int.fdiv (20 * q.num + (q.den : ℤ)) (2 * (q.den : ℤ))

/-- Python `f"{v:.1f}"`: round to the nearest tenth, then render. -/
def fmt1 (q : ℚ) : PyStr := fmtTenths (roundTenths q)

/-- `q` is representable at one-decimal precision (an exact number of tenths),
as every value written by the serializer is. -/
def Tenth (q : ℚ) : Prop := q.den ∣ 10

instance : DecidablePred Tenth := fun q => inferInstanceAs (Decidable (q.den ∣ 10))

/-- Python `round(x, 1)` in `create_docx_report`: the value
`(round (10 * q) : ℚ) / 10` (see `round1_eq`). -/
def round1 (q : ℚ) : ℚ := Rat.divInt (roundTenths q) 10

/-- The regex `^•\s*([^:]+):\s*(.+)$` of `parse_docx_report` (line 85),
applied to an already stripped line. On a match, returns the text standing
for group 1 up to stripping (the regex engine splits at the first colon) and
the text standing for group 2 up to token-level stripping. -/
def bulletMatch (text : PyStr) : Option (PyStr × PyStr) :=
  match text with
  | [] => none
  | x :: rest =>
    if x = '•' then
      match rest.dropWhile (fun c => c != ':') with
      | ':' :: suffix =>
        if rest.takeWhile (fun c => c != ':') = [] ∨ suffix = [] then none
        else some (rest.takeWhile (fun c => c != ':'), suffix)
      | _ => none
    else none

/-- Whether the character at position `i` (if any) is a decimal digit. -/
def isDigitAt (s : PyStr) (i : ℕ) : Bool := (s[i]?).any Char.isDigit

/-- Whether the character at position `i` (if any) is `c`. -/
def isCharAt (s : PyStr) (i : ℕ) (c : Char) : Bool := s[i]? == some c

/-- The regex `^\d{4}-\d{2}-\d{2}:` of `parse_docx_report` (line 100):
eleven positional constraints at the start of the line, rest free. -/
def dateRegexMatch (s : PyStr) : Bool :=
  isDigitAt s 0 && isDigitAt s 1 && isDigitAt s 2 && isDigitAt s 3 &&
  isCharAt s 4 '-' && isDigitAt s 5 && isDigitAt s 6 && isCharAt s 7 '-' &&
  isDigitAt s 8 && isDigitAt s 9 && isCharAt s 10 ':'

/-- A complete `YYYY-MM-DD` date string (the shape every date the program
stores has: parsed dates matched the date regex, fresh ones come from
`strftime("%Y-%m-%d")`): exactly ten characters which followed by `":"`
match the date regex. -/
def dateShaped (d : PyStr) : Bool := d.length == 10 && dateRegexMatch (d ++ [':'])

/-- Shape of an `strftime("%H:%M:%S")` result as far as the parser can
observe it: nonempty, made of digits and colons. -/
def timeOk (t : PyStr) : Bool := !t.isEmpty && t.all (fun c => c.isDigit || c == ':')

/-- Association-list lookup (Python `d[k]` / `k in d`). -/
def assocLookup {β : Type} (k : PyStr) : List (PyStr × β) → Option β
  | [] => none
  | p :: rest => if p.1 = k then some p.2 else assocLookup k rest

/-- Association-list assignment `d[k] = v`: replace in place if the key is
present (Python dicts keep the key's position), append otherwise. -/
def assocSet {β : Type} (k : PyStr) (v : β) : List (PyStr × β) → List (PyStr × β)
  | [] => [(k, v)]
  | p :: rest => if p.1 = k then (k, v) :: rest else p :: assocSet k v rest

/-- The Python exceptions the core can raise. -/
inductive PyErr
  | valueError
  | statisticsError
deriving DecidableEq, Repr

deriving instance DecidableEq for Except

/-- The `meta` dict built by `parse_docx_report` (line 84). -/
structure ParsedMeta where
  player_type : Option PyStr := none
  player_name : Option PyStr := none
  category_history : List (PyStr × List ℚ) := []
  overall_history : List (PyStr × ℚ) := []
deriving DecidableEq, Repr

/-- Full loop state of `parse_docx_report`: the `meta` dict plus the
`overall_header_seen` flag. -/
structure ParseSt where
  meta : ParsedMeta := {}
  overall_header_seen : Bool := false
deriving DecidableEq, Repr

def statsReportSfx : PyStr := ("Stats Report").data
def overallHeaderLine : PyStr := ("Overall Ratings by Date:").data
def overallRatingStart : PyStr := ("Overall Rating:").data

/-- Heading branch of `parse_docx_report` (lines 89-92):
`p, t = text.replace("Stats Report", "").split("–")` (ValueError unless the
split has exactly two parts), then both name and type are assigned. -/
def headingStep (st : ParseSt) (text : PyStr) : Except PyErr ParseSt :=
  match splitOnChar '–' (replaceAll statsReportSfx [] text) with
  | [p, t] =>
    .ok { st with
          meta := { st.meta with
                    player_name := some (pyStrip p)
                    player_type := some (pyStrip t) } }
  | _ => .error .valueError

/-- The list comprehension of line 96: `float` each token left to right,
the first failure raising ValueError (here: `none`). -/
def floatList : List PyStr → Option (List ℚ)
  | [] => some []
  | t :: ts =>
    match parseFloat t with
    | some v => (floatList ts).map (fun vs => v :: vs)
    | none => none

/-- Bullet branch of `parse_docx_report` (lines 93-97): split group 2 on
`";"`, strip tokens, keep nonempty ones, `float` each (ValueError aborts),
and assign the list to `meta["category_history"][cat]`. -/
def bulletStep (st : ParseSt) (g : PyStr × PyStr) : Except PyErr ParseSt :=
  match floatList (((splitOnChar ';' g.2).map pyStrip).filter (fun t => t ≠ [])) with
  | some vals =>
    .ok { st with
          meta := { st.meta with
                    category_history := assocSet (pyStrip g.1) vals st.meta.category_history } }
  | none => .error .valueError

/-- Date-line branch of `parse_docx_report` (lines 100-102):
`date_part, val_part = text.split(":")` (ValueError unless exactly two
parts), then append `(date_part.strip(), float(val_part.strip()))`. -/
def dateStep (st : ParseSt) (text : PyStr) : Except PyErr ParseSt :=
  match splitOnChar ':' text with
  | [dp, vp] =>
    match parseFloat (pyStrip vp) with
    | some v =>
      .ok { st with
            meta := { st.meta with
                      overall_history := st.meta.overall_history ++ [(pyStrip dp, v)] } }
    | none => .error .valueError
  | _ => .error .valueError

/-- One iteration of the `for para in doc.paragraphs` loop of
`parse_docx_report` (lines 87-107), with its `elif` chain in source order. -/
def parseStep (st : ParseSt) (para : PyStr) : Except PyErr ParseSt :=
  let text := pyStrip para
  if statsReportSfx.isSuffixOf text = true ∧ '–' ∈ text then
    headingStep st text
  else
    match bulletMatch text with
    | some g => bulletStep st g
    | none =>
      if text = overallHeaderLine then
        .ok { st with overall_header_seen := true }
      else if st.overall_header_seen = true ∧ dateRegexMatch text = true then
        dateStep st text
      else if overallRatingStart.isPrefixOf text = true then
        .ok st
      else if text = [] then
        .ok { st with overall_header_seen := false }
      else
        .ok st

/-- `parse_docx_report` (lines 77-108) over the document's paragraph texts. -/
def parse_docx_report (paras : List PyStr) : Except PyErr ParsedMeta :=
  (paras.foldlM parseStep {}).map ParseSt.meta

/-- Exact mean of a sub-score dict's values (`stats.mean(sub_scores.values())`
on nonempty input): the sum of the integer scores over their count
(see `avgQ_eq`). -/
def avgQ (sub_scores : List (PyStr × ℤ)) : ℚ :=
  Rat.divInt (sub_scores.map (fun p => p.2)).sum (sub_scores.length : ℤ)

/-- `category_average` (lines 24-25): `stats.mean` of the sub-scores, which
raises `StatisticsError` (here `none`) on an empty dict. There is no capping
parameter in the source. -/
def category_average (sub_scores : List (PyStr × ℤ)) : Option ℚ :=
  match sub_scores with
  | [] => none
  | _ => some (avgQ sub_scores)

/-- The body of the merge loop of `create_docx_report` (lines 121-123):
`if cat not in cat_history: cat_history[cat] = []` followed by
`cat_history[cat].append(round(avg, 1))`. -/
def stepCH (cat_history : List (PyStr × List ℚ)) (p : PyStr × List (PyStr × ℤ))
    (avg : ℚ) : List (PyStr × List ℚ) :=
  let ch :=
    if (assocLookup p.1 cat_history).isNone then assocSet p.1 [] cat_history
    else cat_history
  assocSet p.1 ((assocLookup p.1 ch).getD [] ++ [round1 avg]) ch

/-- The category-history merge loop of `create_docx_report` (lines 117-123):
start from a copy of `prev_cat_history`, and for each category of `scores`
compute its average, create the entry if absent, and append the rounded
average. -/
def mergeCat (prev_cat_history : List (PyStr × List ℚ))
    (scores : List (PyStr × List (PyStr × ℤ))) :
    Except PyErr (List (PyStr × List ℚ)) :=
  scores.foldlM
    (fun cat_history p =>
      match category_average p.2 with
      | none => .error .statisticsError
      | some avg => .ok (stepCH cat_history p avg))
    prev_cat_history

/-- The generator of line 126: the category averages of the current scores,
left to right, an empty sub-dict raising `StatisticsError`. -/
def avgList : List (PyStr × List (PyStr × ℤ)) → Except PyErr (List ℚ)
  | [] => .ok []
  | p :: ps =>
    match category_average p.2 with
    | some a => (avgList ps).map (fun l => a :: l)
    | none => .error .statisticsError

/-- Line 126 of `create_docx_report`:
`round(stats.mean(category_average(subdict) for subdict in scores.values()), 1)`;
`StatisticsError` if `scores` is empty or any sub-dict is empty. -/
def overallScore (scores : List (PyStr × List (PyStr × ℤ))) : Except PyErr ℚ := do
  let avgs ← avgList scores
  match avgs with
  | [] => .error .statisticsError
  | _ => .ok (round1 (qdiv (qsum avgs) ((avgs.length : ℤ) : ℚ)))

/-- Lines 126-129 of `create_docx_report`: copy `prev_overall_history` and
append `(today, overall_score)`. -/
def mergeOverall (scores : List (PyStr × List (PyStr × ℤ)))
    (prev_overall_history : List (PyStr × ℚ)) (today : PyStr) :
    Except PyErr (List (PyStr × ℚ)) :=
  (overallScore scores).map (fun s => prev_overall_history ++ [(today, s)])

/-- Line 136: `f"{player_name} – {player_type} Stats Report"`. -/
def headingLine (player_name player_type : PyStr) : PyStr :=
  player_name ++ (" – ").data ++ player_type ++ (" Stats Report").data

/-- Line 137: `f"Report Generated: {today} {time}"`. -/
def genLine (today now_time : PyStr) : PyStr :=
  ("Report Generated: ").data ++ today ++ [' '] ++ now_time

/-- Line 146: `f"• {cat}: {vals_str}"` with `vals_str = "; ".join(...)`. -/
def bulletLine (cat : PyStr) (vals : List ℚ) : PyStr :=
  ("• ").data ++ cat ++ (": ").data ++ joinSep ("; ").data (vals.map fmt1)

/-- Line 150: `f"Overall Rating: {overall_score:.1f} / 120"`. -/
def overallRatingLine (overall_score : ℚ) : PyStr :=
  ("Overall Rating: ").data ++ fmt1 overall_score ++ (" / 120").data

/-- Line 156: `f"{date_str}: {val:.1f}"`. -/
def dateLine (p : PyStr × ℚ) : PyStr := p.1 ++ (": ").data ++ fmt1 p.2

/-- `create_docx_report` (lines 110-160), modelled as the sequence of
paragraph texts of the produced document. `today` and `now_time` stand for
the two `datetime.now().strftime(...)` results; the chart picture paragraph
has empty text; the byte-level docx packaging is outside the model. -/
def create_docx_report (player_name player_type : PyStr)
    (scores : List (PyStr × List (PyStr × ℤ)))
    (prev_cat_history : List (PyStr × List ℚ))
    (prev_overall_history : List (PyStr × ℚ))
    (today now_time : PyStr) : Except PyErr (List PyStr) := do
  let cat_history ← mergeCat prev_cat_history scores
  let overall_score ← overallScore scores
  let overall_history := prev_overall_history ++ [(today, overall_score)]
  .ok
    ([headingLine player_name player_type,
      genLine today now_time,
      [], []] ++
     scores.map (fun p => bulletLine p.1 ((assocLookup p.1 cat_history).getD [])) ++
     [[],
      overallRatingLine overall_score,
      List.replicate 38 '-',
      ("Overall Ratings by Date:").data] ++
     overall_history.map dateLine)

/-!
Heap model of `create_docx_report`'s mutation behaviour, for the aliasing
claim: Python list objects live in an explicit store (a `Nat`-indexed list
of list values), and the caller's dicts hold references into it.
`prev_cat_history.copy()` (line 118) is a shallow copy: the new dict holds
the same references. `cat_history[cat].append(...)` (line 123) mutates the
store cell in place; `prev_overall_history.copy().append(...)` (lines
127-129) appends to a fresh local list and never writes the store.
-/

/-- Body of the heap merge loop (lines 121-123 on the store): create the
entry with a fresh empty cell if absent, then append to the cell in place. -/
def stepHeap (s : List (PyStr × Nat) × List (List ℚ)) (p : PyStr × List (PyStr × ℤ))
    (avg : ℚ) : Except PyErr (List (PyStr × Nat) × List (List ℚ)) :=
  let ch := if (assocLookup p.1 s.1).isNone then assocSet p.1 s.2.length s.1 else s.1
  let st := if (assocLookup p.1 s.1).isNone then s.2 ++ [[]] else s.2
  match assocLookup p.1 ch with
  | some r => .ok (ch, st.set r (st.getD r [] ++ [round1 avg]))
  | none => .error .valueError

/-- Lines 117-123 of `create_docx_report` on the explicit store: the state
is the local `cat_history` dict (name → reference) plus the store of list
objects. -/
def mergeCatHeap (scores : List (PyStr × List (PyStr × ℤ)))
    (prev_cat_history : List (PyStr × Nat)) (store : List (List ℚ)) :
    Except PyErr (List (PyStr × Nat) × List (List ℚ)) :=
  scores.foldlM
    (fun s p =>
      match category_average p.2 with
      | none => .error .statisticsError
      | some avg => stepHeap s p avg)
    (prev_cat_history, store)

/-- `create_docx_report` on the explicit store (history part, lines
117-129): returns the category store after the merge loop, the overall
store (returned unchanged: line 127 copies the caller's list before
appending), and the local merged overall history. -/
def create_docx_report_heap (scores : List (PyStr × List (PyStr × ℤ)))
    (prev_cat_history : List (PyStr × Nat)) (prev_overall_ref : Nat)
    (catStore : List (List ℚ)) (ovStore : List (List (PyStr × ℚ)))
    (today : PyStr) :
    Except PyErr ((List (PyStr × Nat) × List (List ℚ)) ×
      List (List (PyStr × ℚ)) × List (PyStr × ℚ)) := do
  let merged ← mergeCatHeap scores prev_cat_history catStore
  let overall_score ← overallScore scores
  let overall_history := ovStore.getD prev_overall_ref [] ++ [(today, overall_score)]
  .ok (merged, ovStore, overall_history)

/-- A paragraph line that activates none of the state-changing branches of
the elif chain of `parse_docx_report` (lines 89-107): blank, or neither
heading-shaped, bullet-shaped, the overall header, nor date-shaped. On such
lines the loop body leaves `meta` untouched and never raises. -/
def lineInert (t : PyStr) : Prop :=
  pyStrip t = [] ∨
  (¬(statsReportSfx.isSuffixOf (pyStrip t) = true ∧ '–' ∈ pyStrip t) ∧
    bulletMatch (pyStrip t) = none ∧
    pyStrip t ≠ overallHeaderLine ∧
    dateRegexMatch (pyStrip t) = false)

instance (t : PyStr) : Decidable (lineInert t) := by
  unfold lineInert
  infer_instance

/-- A concrete score matrix used to exercise the pipeline theorems. -/
def exScores : List (PyStr × List (PyStr × ℤ)) :=
  [((("A").data), [((("x").data), (80 : ℤ))])]

/-- A concrete prior category history whose single category also appears in
`exScores`. -/
def exPrevCat : List (PyStr × List ℚ) := [((("A").data), [(50 : ℚ)])]

/-- A concrete prior overall history. -/
def exPrevOv : List (PyStr × ℚ) := [((("2024-01-01").data), (60 : ℚ))]

/-- A concrete score matrix with three categories averaging 80, 90 and 70. -/
def exScores3 : List (PyStr × List (PyStr × ℤ)) :=
  [((("a").data), [((("x").data), (80 : ℤ))]),
   ((("b").data), [((("y").data), (90 : ℤ))]),
   ((("c").data), [((("z").data), (70 : ℤ))])]

/-- The `ParsedMeta` produced by parsing the heading `N – T Stats Report`. -/
def exMetaNT : ParsedMeta :=
  { player_type := some (("T").data), player_name := some (("N").data) }

/-!
## Bridge lemmas: the executable arithmetic denotes the field operations
-/

theorem numCast_eq_mul_den (q : ℚ) : (q.num : ℚ) = q * (q.den : ℚ) := by
  exact (div_eq_iff (by exact_mod_cast q.den_ne_zero)).mp (Rat.num_div_den q)

theorem qdiv_eq (a b : ℚ) : qdiv a b = a / b := by
  rcases eq_or_ne b 0 with hb | hb
  · subst hb
    simp [qdiv, Rat.divInt_eq_div]
  · have hbn : (b.num : ℚ) ≠ 0 := by exact_mod_cast Rat.num_ne_zero.mpr hb
    have had : ((a.den : ℕ) : ℚ) ≠ 0 := by exact_mod_cast a.den_ne_zero
    rw [qdiv, Rat.divInt_eq_div]
    push_cast
    rw [div_eq_div_iff (mul_ne_zero had hbn) hb]
    rw [numCast_eq_mul_den a, numCast_eq_mul_den b]
    ring

theorem qadd_eq (a b : ℚ) : qadd a b = a + b := by
  have had : ((a.den : ℕ) : ℚ) ≠ 0 := by exact_mod_cast a.den_ne_zero
  have hbd : ((b.den : ℕ) : ℚ) ≠ 0 := by exact_mod_cast b.den_ne_zero
  rw [qadd, Rat.divInt_eq_div]
  push_cast
  conv_rhs => rw [← Rat.num_div_den a, ← Rat.num_div_den b]
  rw [div_add_div _ _ had hbd]
  congr 1
  ring

theorem qsum_eq (l : List ℚ) : qsum l = l.sum := by
  induction l with
  | nil => rfl
  | cons q l ih =>
    show qadd q (qsum l) = _
    rw [qadd_eq, ih, List.sum_cons]

theorem decimalVal_eq (ip fp k : ℕ) :
    decimalVal ip fp k = (ip : ℚ) + (fp : ℚ) / (10 : ℚ) ^ k := by
  have h10 : ((10 : ℚ)) ^ k ≠ 0 := by positivity
  rw [decimalVal, Rat.divInt_eq_div]
  push_cast
  field_simp

theorem roundTenths_eq (q : ℚ) : roundTenths q = round (10 * q) := by
  have key : 10 * q + 1 / 2 = ((20 * q.num + (q.den : ℤ) : ℤ) : ℚ) / ((2 * q.den : ℕ) : ℚ) := by
    rw [eq_div_iff (by positivity)]
    push_cast
    rw [numCast_eq_mul_den q]
    ring
  have hfl := Rat.floor_intCast_div_natCast (20 * q.num + (q.den : ℤ)) (2 * q.den)
  rw [round_eq, key]
  push_cast at hfl ⊢
  rw [hfl, roundTenths, Int.fdiv_eq_ediv _ (by positivity)]

theorem round1_eq (q : ℚ) : round1 q = ((round (10 * q) : ℤ) : ℚ) / 10 := by
  rw [round1, Rat.divInt_eq_div, roundTenths_eq]
  norm_num

theorem avgQ_eq (sub : List (PyStr × ℤ)) :
    avgQ sub = ((sub.map (fun p => (p.2 : ℚ))).sum) / ((sub.length : ℕ) : ℚ) := by
  rw [avgQ, Rat.divInt_eq_div, Int.cast_list_sum, List.map_map]
  rfl

/-!
## One-decimal values
-/

theorem Tenth_round1 (q : ℚ) : Tenth (round1 q) := by
  have h := Rat.den_dvd (roundTenths q) 10
  rw [← round1] at h
  exact_mod_cast h

theorem round1_tenth_fix {v : ℚ} (h : Tenth v) : round1 v = v := by
  obtain ⟨c, hc⟩ := h
  have h10 : ((10 : ℕ) : ℚ) = ((v.den * c : ℕ) : ℚ) := congrArg _ hc
  push_cast at h10
  have hk : ((v.num * c : ℤ) : ℚ) = 10 * v := by
    push_cast
    rw [numCast_eq_mul_den v, h10]
    ring
  rw [round1_eq, ← hk, round_intCast, hk]
  rw [mul_comm]
  rw [div_eq_iff (by norm_num : (10 : ℚ) ≠ 0)]

theorem Tenth_intCast (z : ℤ) : Tenth ((z : ℚ)) := by
  have : ((z : ℚ)).den = 1 := Rat.den_intCast z
  rw [Tenth, this]
  exact one_dvd 10

/-!
## Character classes
-/

theorem isDigit_ne {c : Char} (h : c.isDigit = true) (k : Char) (hk : k.isDigit = false) :
    c ≠ k := by
  intro he
  subst he
  rw [h] at hk
  cases hk

theorem ws_cases {c : Char} (h : c.isWhitespace = true) :
    c = ' ' ∨ c = '\t' ∨ c = '\x0d' ∨ c = '\n' := by
  simpa [Char.isWhitespace, or_assoc] using h

theorem isDigit_not_ws {c : Char} (h : c.isDigit = true) : c.isWhitespace = false := by
  cases hw : c.isWhitespace
  · rfl
  · rcases ws_cases hw with h1 | h1 | h1 | h1 <;> subst h1 <;> exact absurd h (by decide)

/-!
## List helper lemmas
-/

theorem takeWhile_all_append {p : Char → Bool} {A : PyStr} (B : PyStr)
    (h : ∀ c ∈ A, p c = true) : (A ++ B).takeWhile p = A ++ B.takeWhile p := by
  induction A with
  | nil => rfl
  | cons c A ih =>
    have hc : p c = true := h c (List.mem_cons_self c A)
    simp only [List.cons_append, List.takeWhile_cons, hc, if_true]
    rw [ih (fun x hx => h x (List.mem_cons_of_mem c hx))]

theorem dropWhile_all_append {p : Char → Bool} {A : PyStr} (B : PyStr)
    (h : ∀ c ∈ A, p c = true) : (A ++ B).dropWhile p = B.dropWhile p := by
  induction A with
  | nil => rfl
  | cons c A ih =>
    have hc : p c = true := h c (List.mem_cons_self c A)
    simp only [List.cons_append, List.dropWhile_cons, hc, if_true]
    exact ih (fun x hx => h x (List.mem_cons_of_mem c hx))

theorem splitOnChar_cons_ne (c : Char) {x : Char} (xs : PyStr) (hx : x ≠ c) :
    splitOnChar c (x :: xs) =
      match splitOnChar c xs with
      | t :: ts => (x :: t) :: ts
      | [] => [[x]] := by
  show (if x = c then [] :: splitOnChar c xs else
    match splitOnChar c xs with
    | t :: ts => (x :: t) :: ts
    | [] => [[x]]) = _
  rw [if_neg hx]

theorem splitOnChar_not_mem {c : Char} {a : PyStr} (h : c ∉ a) : splitOnChar c a = [a] := by
  induction a with
  | nil => rfl
  | cons x xs ih =>
    have hx : x ≠ c := fun he => h (he ▸ List.mem_cons_self x xs)
    have hxs : c ∉ xs := fun hm => h (List.mem_cons_of_mem x hm)
    simp only [splitOnChar, if_neg hx, ih hxs]

theorem splitOnChar_append {c : Char} {a : PyStr} (b : PyStr) (h : c ∉ a) :
    splitOnChar c (a ++ c :: b) = a :: splitOnChar c b := by
  induction a with
  | nil => simp [splitOnChar]
  | cons x xs ih =>
    have hx : x ≠ c := fun he => h (he ▸ List.mem_cons_self x xs)
    have hxs : c ∉ xs := fun hm => h (List.mem_cons_of_mem x hm)
    rw [List.cons_append, splitOnChar_cons_ne c _ hx, ih hxs]

theorem splitOnChar_ne_nil (c : Char) (l : PyStr) : splitOnChar c l ≠ [] := by
  induction l with
  | nil => simp [splitOnChar]
  | cons x xs ih =>
    by_cases hx : x = c
    · simp [splitOnChar, hx]
    · simp only [splitOnChar, if_neg hx]
      rcases hsp : splitOnChar c xs with _ | ⟨t, ts⟩
      · exact absurd hsp ih
      · simp

theorem length_splitOnChar (c : Char) (l : PyStr) :
    (splitOnChar c l).length = l.count c + 1 := by
  induction l with
  | nil => simp [splitOnChar]
  | cons x xs ih =>
    by_cases hx : x = c
    · subst hx
      unfold splitOnChar
      rw [if_pos rfl]
      simp only [List.length_cons, ih, List.count_cons_self]
    · unfold splitOnChar
      rw [if_neg hx]
      rcases hsp : splitOnChar c xs with _ | ⟨t, ts⟩
      · exact absurd hsp (splitOnChar_ne_nil c xs)
      · rw [hsp] at ih
        simp only [List.length_cons] at ih ⊢
        rw [List.count_cons_of_ne (Ne.symm hx)]
        omega

theorem count_replaceAllGo {c : Char} {pat : PyStr} (hp : pat ≠ []) (hc : c ∉ pat) :
    ∀ (fuel : Nat) (s : PyStr), (replaceAllGo pat [] fuel s).count c = s.count c := by
  intro fuel
  induction fuel with
  | zero => intro s; cases s <;> rfl
  | succ fuel ih =>
    intro s
    cases s with
    | nil => rfl
    | cons x rest =>
      show (if pat.isPrefixOf (x :: rest) then
          [] ++ replaceAllGo pat [] fuel (rest.drop (pat.length - 1))
        else x :: replaceAllGo pat [] fuel rest).count c = _
      by_cases hpre : pat.isPrefixOf (x :: rest)
      · rw [if_pos hpre, List.nil_append]
        obtain ⟨t, ht⟩ := List.isPrefixOf_iff_prefix.mp hpre
        obtain ⟨p0, pat', hpat⟩ : ∃ p0 pat', pat = p0 :: pat' := by
          cases pat with
          | nil => exact absurd rfl hp
          | cons a b => exact ⟨a, b, rfl⟩
        subst hpat
        have hrest : rest = pat' ++ t := by
          rw [List.cons_append] at ht
          exact (List.cons_eq_cons.mp ht).2.symm
        have hdrop : rest.drop ((p0 :: pat').length - 1) = t := by
          rw [hrest]
          simp [List.drop_left]
        rw [hdrop, ih, ← ht]
        rw [List.count_append, List.count_eq_zero.mpr hc]
        omega
      · rw [if_neg hpre]
        simp only [List.count_cons, ih]

theorem count_replaceAll {c : Char} {pat : PyStr} (s : PyStr) (hp : pat ≠ [])
    (hc : c ∉ pat) : (replaceAll pat [] s).count c = s.count c :=
  count_replaceAllGo hp hc s.length s

/-!
## Stripping lemmas
-/

theorem trimL_eq_self {l : PyStr} (h : ∀ x, l.head? = some x → x.isWhitespace = false) :
    trimL l = l := by
  cases l with
  | nil => rfl
  | cons x xs =>
    rw [trimL, List.dropWhile_cons, h x rfl]
    simp

theorem trimR_eq_self {l : PyStr} (h : ∀ x, l.getLast? = some x → x.isWhitespace = false) :
    trimR l = l := by
  rw [trimR]
  cases hr : l.reverse with
  | nil =>
    rw [List.reverse_eq_nil_iff.mp hr]
    rfl
  | cons x xs =>
    have hx : x.isWhitespace = false := by
      refine h x ?_
      rw [← List.head?_reverse, hr]
      rfl
    rw [List.dropWhile_cons, hx]
    simp only [Bool.false_eq_true, if_false]
    rw [← hr, List.reverse_reverse]

theorem pyStrip_eq_self {l : PyStr} (h1 : ∀ x, l.head? = some x → x.isWhitespace = false)
    (h2 : ∀ x, l.getLast? = some x → x.isWhitespace = false) : pyStrip l = l := by
  rw [pyStrip, trimL_eq_self h1, trimR_eq_self h2]

theorem pyStrip_cons_ws {c : Char} {l : PyStr} (h : c.isWhitespace = true) :
    pyStrip (c :: l) = pyStrip l := by
  rw [pyStrip, pyStrip]
  congr 1
  rw [trimL, trimL, List.dropWhile_cons, h]
  simp

/-!
## Digit strings
-/

theorem digitsVal_append_digit (l : PyStr) (c : Char) :
    digitsVal (l ++ [c]) = 10 * digitsVal l + (c.toNat - 48) := by
  rw [digitsVal, List.foldl_append]
  rfl

theorem digitsVal_single (c : Char) : digitsVal [c] = c.toNat - 48 := by
  rw [digitsVal]
  show 10 * 0 + (c.toNat - 48) = c.toNat - 48
  omega

theorem digitChar_toNat {d : ℕ} (h : d < 10) : (Nat.digitChar d).toNat - 48 = d := by
  interval_cases d <;> decide

theorem digitChar_isDigit {d : ℕ} (h : d < 10) : (Nat.digitChar d).isDigit = true := by
  interval_cases d <;> decide

theorem natDigitsGo_spec :
    ∀ (fuel n : Nat), n ≤ fuel →
      digitsVal (natDigitsGo fuel n) = n ∧ (∀ c ∈ natDigitsGo fuel n, c.isDigit = true) ∧
        natDigitsGo fuel n ≠ [] := by
  intro fuel
  induction fuel with
  | zero =>
    intro n hn
    interval_cases n
    refine ⟨by decide, ?_, by decide⟩
    intro c hc
    simp only [natDigitsGo] at hc
    rw [List.mem_singleton] at hc
    subst hc
    decide
  | succ fuel ih =>
    intro n hn
    have hdef : natDigitsGo (fuel + 1) n = (if n < 10 then [Nat.digitChar n]
        else natDigitsGo fuel (n / 10) ++ [Nat.digitChar (n % 10)]) := rfl
    rw [hdef]
    by_cases h10 : n < 10
    · rw [if_pos h10]
      refine ⟨?_, ?_, by simp⟩
      · rw [digitsVal_single, digitChar_toNat h10]
      · intro c hc
        rw [List.mem_singleton] at hc
        subst hc
        exact digitChar_isDigit h10
    · rw [if_neg h10]
      have hrec : n / 10 ≤ fuel := by omega
      obtain ⟨hv, hd, hne⟩ := ih (n / 10) hrec
      refine ⟨?_, ?_, by simp⟩
      · rw [digitsVal_append_digit, hv, digitChar_toNat (Nat.mod_lt n (by norm_num))]
        omega
      · intro c hc
        rcases List.mem_append.mp hc with hc | hc
        · exact hd c hc
        · rw [List.mem_singleton] at hc
          subst hc
          exact digitChar_isDigit (Nat.mod_lt n (by norm_num))

theorem digitsVal_natDigits (n : ℕ) : digitsVal (natDigits n) = n :=
  (natDigitsGo_spec n n le_rfl).1

theorem natDigits_all_digit (n : ℕ) : ∀ c ∈ natDigits n, c.isDigit = true :=
  (natDigitsGo_spec n n le_rfl).2.1

theorem natDigits_ne_nil (n : ℕ) : natDigits n ≠ [] :=
  (natDigitsGo_spec n n le_rfl).2.2

/-!
## Formatting and re-parsing one-decimal values
-/

theorem parseUnsigned_digits_frac {A B : PyStr} (hA : ∀ c ∈ A, c.isDigit = true)
    (hB : ∀ c ∈ B, c.isDigit = true) (hnil : ¬(A = [] ∧ B = [])) :
    parseUnsigned (A ++ '.' :: B) = some (decimalVal (digitsVal A) (digitsVal B) B.length) := by
  have htake : (A ++ '.' :: B).takeWhile Char.isDigit = A := by
    rw [takeWhile_all_append _ hA, List.takeWhile_cons, if_neg (by decide), List.append_nil]
  have hdrop : (A ++ '.' :: B).dropWhile Char.isDigit = '.' :: B := by
    rw [dropWhile_all_append _ hA, List.dropWhile_cons, if_neg (by decide)]
  rw [parseUnsigned]
  simp only [htake, hdrop, List.head?_cons, List.tail_cons]
  rw [if_neg (by simp), if_pos trivial, if_pos ⟨List.all_eq_true.mpr hB, hnil⟩]

theorem head?_isDigit_ne {s : PyStr} {c0 : Char} (hh : s.head? = some c0)
    (hd : c0.isDigit = true) (k : Char) (hk : k.isDigit = false) : ¬s.head? = some k := by
  intro hcon
  rw [hh] at hcon
  have : c0 = k := by injection hcon
  exact isDigit_ne hd k hk this

theorem parseFloat_of_digit_head {s : PyStr} {c0 : Char} (hh : s.head? = some c0)
    (hd : c0.isDigit = true) : parseFloat s = parseUnsigned s := by
  rw [parseFloat, if_neg (head?_isDigit_ne hh hd '-' (by decide)),
    if_neg (head?_isDigit_ne hh hd '+' (by decide))]

theorem fmtTenths_nonneg (z : ℤ) (hz : 0 ≤ z) :
    fmtTenths z = natDigits (z.natAbs / 10) ++ '.' :: [Nat.digitChar (z.natAbs % 10)] := by
  rw [fmtTenths, if_neg (by omega), List.nil_append]

theorem fmtTenths_neg (z : ℤ) (hz : z < 0) :
    fmtTenths z = '-' :: (natDigits (z.natAbs / 10) ++ '.' :: [Nat.digitChar (z.natAbs % 10)]) := by
  rw [fmtTenths, if_pos hz]
  rfl

theorem decimalVal_tenths (n : ℕ) :
    decimalVal (n / 10) (n % 10) 1 = Rat.divInt (n : ℤ) 10 := by
  rw [decimalVal]
  congr 1
  push_cast
  omega

theorem parseUnsigned_natAbs (z : ℤ) :
    parseUnsigned (natDigits (z.natAbs / 10) ++ '.' :: [Nat.digitChar (z.natAbs % 10)]) =
      some (Rat.divInt (z.natAbs : ℤ) 10) := by
  have hmod : z.natAbs % 10 < 10 := Nat.mod_lt _ (by norm_num)
  rw [parseUnsigned_digits_frac (natDigits_all_digit _)
    (fun c hc => by rw [List.mem_singleton] at hc; subst hc; exact digitChar_isDigit hmod)
    (fun h => natDigits_ne_nil _ h.1)]
  rw [digitsVal_natDigits, digitsVal_single, digitChar_toNat hmod]
  rw [List.length_singleton, decimalVal_tenths]

theorem parseFloat_fmtTenths (z : ℤ) : parseFloat (fmtTenths z) = some (Rat.divInt z 10) := by
  rcases le_or_lt 0 z with hz | hz
  · rw [fmtTenths_nonneg z hz]
    have hne := natDigits_ne_nil (z.natAbs / 10)
    obtain ⟨c0, s0, hs0⟩ : ∃ c0 s0, natDigits (z.natAbs / 10) = c0 :: s0 := by
      cases hd : natDigits (z.natAbs / 10) with
      | nil => exact absurd hd hne
      | cons a b => exact ⟨a, b, rfl⟩
    have hh : (natDigits (z.natAbs / 10) ++ '.' :: [Nat.digitChar (z.natAbs % 10)]).head? =
        some c0 := by
      rw [hs0]
      rfl
    have hd : c0.isDigit = true := natDigits_all_digit _ c0 (hs0 ▸ List.mem_cons_self c0 s0)
    rw [parseFloat_of_digit_head hh hd, parseUnsigned_natAbs]
    congr 2
    omega
  · rw [fmtTenths_neg z hz, parseFloat]
    simp only [List.head?_cons, List.tail_cons]
    rw [if_pos trivial, parseUnsigned_natAbs]
    show some (-(Rat.divInt (z.natAbs : ℤ) 10)) = _
    rw [Rat.neg_divInt]
    congr 2
    omega

theorem parseFloat_fmt1 {v : ℚ} (h : Tenth v) : parseFloat (fmt1 v) = some v := by
  rw [fmt1, parseFloat_fmtTenths]
  congr 1
  exact round1_tenth_fix h

theorem fmtTenths_chars (z : ℤ) :
    ∀ c ∈ fmtTenths z, c.isDigit = true ∨ c = '-' ∨ c = '.' := by
  intro c hc
  rw [fmtTenths] at hc
  rcases List.mem_append.mp hc with hc | hc
  · rcases List.mem_append.mp hc with hc | hc
    · split at hc
      · rw [List.mem_singleton] at hc
        exact Or.inr (Or.inl hc)
      · cases hc
    · exact Or.inl (natDigits_all_digit _ c hc)
  · rcases List.mem_cons.mp hc with hc | hc
    · exact Or.inr (Or.inr hc)
    · rw [List.mem_singleton] at hc
      subst hc
      exact Or.inl (digitChar_isDigit (Nat.mod_lt _ (by norm_num)))

theorem fmt1_chars (v : ℚ) : ∀ c ∈ fmt1 v, c.isDigit = true ∨ c = '-' ∨ c = '.' :=
  fmtTenths_chars (roundTenths v)

theorem fmt1_not_ws (v : ℚ) : ∀ c ∈ fmt1 v, c.isWhitespace = false := by
  intro c hc
  rcases fmt1_chars v c hc with h | h | h
  · exact isDigit_not_ws h
  · subst h; decide
  · subst h; decide

theorem fmt1_no_semi (v : ℚ) : ';' ∉ fmt1 v := by
  intro hc
  rcases fmt1_chars v ';' hc with h | h | h <;> exact absurd h (by decide)

theorem fmt1_no_colon (v : ℚ) : ':' ∉ fmt1 v := by
  intro hc
  rcases fmt1_chars v ':' hc with h | h | h <;> exact absurd h (by decide)

theorem fmt1_no_dash (v : ℚ) : '–' ∉ fmt1 v := by
  intro hc
  rcases fmt1_chars v '–' hc with h | h | h <;> exact absurd h (by decide)

theorem fmtTenths_ne_nil (z : ℤ) : fmtTenths z ≠ [] := by
  rw [fmtTenths]
  intro h
  rcases List.append_eq_nil.mp h with ⟨h1, h2⟩
  cases h2

theorem fmt1_ne_nil (v : ℚ) : fmt1 v ≠ [] := fmtTenths_ne_nil (roundTenths v)

theorem fmtTenths_getLast (z : ℤ) :
    (fmtTenths z).getLast? = some (Nat.digitChar (z.natAbs % 10)) := by
  rw [fmtTenths, List.getLast?_append]
  rfl

theorem fmt1_getLast_digit (v : ℚ) :
    ∀ c, (fmt1 v).getLast? = some c → c.isDigit = true := by
  intro c hc
  rw [fmt1, fmtTenths_getLast] at hc
  have : Nat.digitChar ((roundTenths v).natAbs % 10) = c := by injection hc
  subst this
  exact digitChar_isDigit (Nat.mod_lt _ (by norm_num))

theorem pyStrip_fmt1 (v : ℚ) : pyStrip (fmt1 v) = fmt1 v := by
  refine pyStrip_eq_self ?_ ?_
  · intro x hx
    exact fmt1_not_ws v x (List.mem_of_mem_head? hx)
  · intro x hx
    exact fmt1_not_ws v x (List.mem_of_mem_getLast? hx)

/-!
## Counting characters through strip and replace
-/

theorem count_dropWhile {c : Char} {p : Char → Bool} (hcp : p c = false) (l : PyStr) :
    (l.dropWhile p).count c = l.count c := by
  induction l with
  | nil => rfl
  | cons x xs ih =>
    rw [List.dropWhile_cons]
    by_cases hx : p x
    · rw [if_pos hx, ih]
      have hxc : x ≠ c := fun he => by rw [he, hcp] at hx; cases hx
      rw [List.count_cons_of_ne (Ne.symm hxc)]
    · rw [if_neg hx]

theorem count_pyStrip {c : Char} (hws : c.isWhitespace = false) (l : PyStr) :
    (pyStrip l).count c = l.count c := by
  rw [pyStrip, trimR, trimL, List.count_reverse, count_dropWhile hws,
    List.count_reverse, count_dropWhile hws]

theorem getLast?_append_of_ne_nil {p t : PyStr} (hp : p ≠ []) :
    (t ++ p).getLast? = p.getLast? := by
  rw [List.getLast?_append]
  cases hl : p.getLast? with
  | none => exact absurd (List.getLast?_eq_none_iff.mp hl) hp
  | some c => rfl

theorem suffix_getLast? {p l : PyStr} (h : p <:+ l) (hp : p ≠ []) :
    l.getLast? = p.getLast? := by
  obtain ⟨t, ht⟩ := h
  rw [← ht, getLast?_append_of_ne_nil hp]

/-!
## The serialized heading line
-/

theorem headingLine_getLast (name ty : PyStr) :
    (headingLine name ty).getLast? = some 't' := by
  rw [headingLine, getLast?_append_of_ne_nil (by decide)]
  decide

theorem trimR_eq_self_of_getLast {l : PyStr} (c : Char) (h : l.getLast? = some c)
    (hc : c.isWhitespace = false) : trimR l = l := by
  refine trimR_eq_self ?_
  intro x hx
  rw [h] at hx
  have : c = x := by injection hx
  subst this
  exact hc

theorem pyStrip_headingLine_suffix (name ty : PyStr) :
    statsReportSfx <:+ pyStrip (headingLine name ty) := by
  have hSR : (" Stats Report").data = ' ' :: statsReportSfx := by decide
  rw [pyStrip]
  have htrimL : trimL (headingLine name ty) = statsReportSfx ∨
      ∃ A, trimL (headingLine name ty) = A ++ (" Stats Report").data := by
    rw [headingLine, trimL, List.dropWhile_append]
    split
    · left
      decide
    · right
      exact ⟨_, rfl⟩
  rcases htrimL with h | ⟨A, h⟩
  · rw [h, trimR_eq_self_of_getLast 't' (by decide) (by decide)]
  · rw [h]
    have hlast : (A ++ (" Stats Report").data).getLast? = some 't' := by
      rw [getLast?_append_of_ne_nil (by decide)]
      decide
    rw [trimR_eq_self_of_getLast 't' hlast (by decide)]
    refine ⟨A ++ [' '], ?_⟩
    rw [hSR]
    simp

theorem count_dash_headingLine {name ty : PyStr} (h1 : '–' ∉ name) (h2 : '–' ∉ ty) :
    (headingLine name ty).count '–' = 1 := by
  rw [headingLine]
  rw [List.count_append, List.count_append, List.count_append]
  rw [List.count_eq_zero.mpr h1, List.count_eq_zero.mpr h2]
  decide

/-!
## Evaluating `parseStep` on each kind of serialized line
-/

theorem not_SR_suffix_of_last {text : PyStr} {c : Char} (h : text.getLast? = some c)
    (hc : c ≠ 't') : statsReportSfx.isSuffixOf text = false := by
  cases hb : statsReportSfx.isSuffixOf text
  · rfl
  · have hs := suffix_getLast? (List.isSuffixOf_iff_suffix.mp hb) (by decide)
    rw [h] at hs
    have : c = 't' := by
      have : some c = statsReportSfx.getLast? := hs
      rw [show statsReportSfx.getLast? = some 't' from by decide] at this
      injection this
    exact absurd this hc

theorem bulletMatch_cons_ne {x : Char} (rest : PyStr) (hx : x ≠ '•') :
    bulletMatch (x :: rest) = none := by
  show (if x = '•' then _ else none) = none
  rw [if_neg hx]

theorem dateRegexMatch_cons_not_digit {c : Char} {rest : PyStr} (hc : c.isDigit = false) :
    dateRegexMatch (c :: rest) = false := by
  have h0 : isDigitAt (c :: rest) 0 = false := by
    simp [isDigitAt, hc]
  rw [dateRegexMatch, h0]
  rfl

theorem isPrefixOf_cons_ne {x y : Char} (xs ys : PyStr) (h : x ≠ y) :
    (x :: xs).isPrefixOf (y :: ys) = false := by
  show (x == y && xs.isPrefixOf ys) = false
  rw [beq_eq_false_iff_ne.mpr h]
  rfl

theorem parseStep_skip (st : ParseSt) (para : PyStr)
    (h1 : ¬(statsReportSfx.isSuffixOf (pyStrip para) = true ∧ '–' ∈ pyStrip para))
    (h2 : bulletMatch (pyStrip para) = none)
    (h3 : pyStrip para ≠ overallHeaderLine)
    (h4 : ¬(st.overall_header_seen = true ∧ dateRegexMatch (pyStrip para) = true))
    (h6 : pyStrip para ≠ []) : parseStep st para = .ok st := by
  simp only [parseStep]
  rw [if_neg h1, h2]
  rw [if_neg h3, if_neg h4]
  by_cases h5 : overallRatingStart.isPrefixOf (pyStrip para) = true
  · rw [if_pos h5]
  · rw [if_neg h5, if_neg h6]

theorem parseStep_blank (st : ParseSt) (para : PyStr) (hblank : pyStrip para = []) :
    parseStep st para = .ok { st with overall_header_seen := false } := by
  simp [parseStep, hblank, show bulletMatch ([] : PyStr) = none from rfl,
    show dateRegexMatch ([] : PyStr) = false from rfl,
    show (overallHeaderLine = ([] : PyStr)) = False from eq_false (by decide),
    show (overallRatingStart = ([] : PyStr)) = False from eq_false (by decide)]

theorem parseStep_header (st : ParseSt) (para : PyStr)
    (hh : pyStrip para = overallHeaderLine) :
    parseStep st para = .ok { st with overall_header_seen := true } := by
  simp [parseStep, hh, show bulletMatch overallHeaderLine = none from by decide,
    show List.isSuffixOf statsReportSfx overallHeaderLine = false from by decide]

theorem parseStep_sep (st : ParseSt) :
    parseStep st (List.replicate 38 '-') = .ok st := by
  have hstrip : pyStrip (List.replicate 38 '-') = List.replicate 38 '-' := by decide
  refine parseStep_skip st _ ?_ ?_ ?_ ?_ ?_ <;> rw [hstrip]
  · decide
  · decide
  · decide
  · intro h
    exact absurd h.2 (by decide)
  · decide

theorem parseStep_headingLine (st : ParseSt) {name ty : PyStr} (h1 : '–' ∉ name)
    (h2 : '–' ∉ ty) :
    ∃ pn pt, parseStep st (headingLine name ty) =
      .ok { st with meta := { st.meta with player_name := some pn, player_type := some pt } } := by
  have hsfx : statsReportSfx.isSuffixOf (pyStrip (headingLine name ty)) = true :=
    List.isSuffixOf_iff_suffix.mpr (pyStrip_headingLine_suffix name ty)
  have hcount : (pyStrip (headingLine name ty)).count '–' = 1 := by
    rw [count_pyStrip (by decide), count_dash_headingLine h1 h2]
  have hdash : '–' ∈ pyStrip (headingLine name ty) := by
    have : 0 < (pyStrip (headingLine name ty)).count '–' := by omega
    exact List.count_pos_iff.mp this
  have hrep : (replaceAll statsReportSfx [] (pyStrip (headingLine name ty))).count '–' = 1 := by
    rw [count_replaceAll _ (by decide) (by decide), hcount]
  have hlen :
      (splitOnChar '–' (replaceAll statsReportSfx [] (pyStrip (headingLine name ty)))).length
        = 2 := by
    rw [length_splitOnChar, hrep]
  obtain ⟨p, t, hpt⟩ := List.length_eq_two.mp hlen
  refine ⟨pyStrip p, pyStrip t, ?_⟩
  simp only [parseStep]
  rw [if_pos ⟨hsfx, hdash⟩]
  simp only [headingStep, hpt]

theorem timeOk_ne_nil {t : PyStr} (h : timeOk t = true) : t ≠ [] := by
  rw [timeOk, Bool.and_eq_true] at h
  intro he
  subst he
  exact absurd h.1 (by decide)

theorem timeOk_chars {t : PyStr} (h : timeOk t = true) :
    ∀ c ∈ t, c.isDigit = true ∨ c = ':' := by
  rw [timeOk, Bool.and_eq_true] at h
  intro c hc
  have h2 := List.all_eq_true.mp h.2 c hc
  rcases Bool.or_eq_true_iff.mp h2 with h3 | h3
  · exact Or.inl h3
  · exact Or.inr (by exact_mod_cast beq_iff_eq.mp h3)

theorem parseStep_genLine (st : ParseSt) (today : PyStr) {time : PyStr}
    (htime : timeOk time = true) : parseStep st (genLine today time) = .ok st := by
  have hcons : genLine today time =
      'R' :: ((("eport Generated: ").data ++ today ++ [' ']) ++ time) := rfl
  obtain ⟨e, he⟩ : ∃ e, time.getLast? = some e := by
    cases hg : time.getLast? with
    | none => exact absurd (List.getLast?_eq_none_iff.mp hg) (timeOk_ne_nil htime)
    | some c => exact ⟨c, rfl⟩
  have hlast : (genLine today time).getLast? = some e := by
    rw [genLine, getLast?_append_of_ne_nil (timeOk_ne_nil htime), he]
  have hche := timeOk_chars htime e (List.mem_of_mem_getLast? he)
  have het : e ≠ 't' := by
    rcases hche with h | h
    · exact isDigit_ne h 't' (by decide)
    · subst h
      decide
  have hews : e.isWhitespace = false := by
    rcases hche with h | h
    · exact isDigit_not_ws h
    · subst h
      decide
  have hstrip : pyStrip (genLine today time) = genLine today time := by
    refine pyStrip_eq_self ?_ ?_
    · intro x hx
      rw [hcons, List.head?_cons] at hx
      have : 'R' = x := by injection hx
      subst this
      decide
    · intro x hx
      rw [hlast] at hx
      have : e = x := by injection hx
      subst this
      exact hews
  refine parseStep_skip st _ ?_ ?_ ?_ ?_ ?_ <;> rw [hstrip]
  · intro hcontra
    rw [not_SR_suffix_of_last hlast het] at hcontra
    exact absurd hcontra.1 (by decide)
  · rw [hcons]
    exact bulletMatch_cons_ne _ (by decide)
  · intro hcontra
    have hh := congrArg List.head? hcontra
    rw [hcons, List.head?_cons] at hh
    exact absurd hh (by decide)
  · intro hcontra
    rw [hcons, dateRegexMatch_cons_not_digit (by decide)] at hcontra
    exact absurd hcontra.2 (by decide)
  · rw [hcons]
    simp

theorem parseStep_overallRatingLine (st : ParseSt) (v : ℚ) :
    parseStep st (overallRatingLine v) = .ok st := by
  have hcons : overallRatingLine v =
      'O' :: ((("verall Rating: ").data ++ fmt1 v) ++ (" / 120").data) := rfl
  have hlast : (overallRatingLine v).getLast? = some '0' := by
    rw [overallRatingLine, getLast?_append_of_ne_nil (by decide)]
    decide
  have hstrip : pyStrip (overallRatingLine v) = overallRatingLine v := by
    refine pyStrip_eq_self ?_ ?_
    · intro x hx
      rw [hcons, List.head?_cons] at hx
      have : 'O' = x := by injection hx
      subst this
      decide
    · intro x hx
      rw [hlast] at hx
      have : '0' = x := by injection hx
      subst this
      decide
  have hidx : (overallRatingLine v)[14]? = some ':' := by
    rw [overallRatingLine]
    rw [List.getElem?_append_left (by
      rw [List.length_append]
      have : (("Overall Rating: ").data).length = 16 := by decide
      omega)]
    rw [List.getElem?_append_left (by decide)]
    decide
  refine parseStep_skip st _ ?_ ?_ ?_ ?_ ?_ <;> rw [hstrip]
  · intro hcontra
    rw [not_SR_suffix_of_last hlast (by decide)] at hcontra
    exact absurd hcontra.1 (by decide)
  · rw [hcons]
    exact bulletMatch_cons_ne _ (by decide)
  · intro hcontra
    have hh := congrArg (fun l => l[14]?) hcontra
    simp only at hh
    rw [hidx] at hh
    exact absurd hh (by decide)
  · intro hcontra
    rw [hcons, dateRegexMatch_cons_not_digit (by decide)] at hcontra
    exact absurd hcontra.2 (by decide)
  · rw [hcons]
    simp

/-!
## The serialized bullet line
-/

theorem joinSep_fmt1_getLast :
    ∀ (vals : List ℚ), vals ≠ [] →
      ∃ c, (joinSep ("; ").data (vals.map fmt1)).getLast? = some c ∧ c.isDigit = true := by
  intro vals
  induction vals with
  | nil => intro hv; exact absurd rfl hv
  | cons v vs ih =>
    intro _
    cases vs with
    | nil =>
      obtain ⟨c, hc⟩ : ∃ c, (fmt1 v).getLast? = some c := by
        cases hg : (fmt1 v).getLast? with
        | none => exact absurd (List.getLast?_eq_none_iff.mp hg) (fmt1_ne_nil v)
        | some c => exact ⟨c, rfl⟩
      refine ⟨c, ?_, fmt1_getLast_digit v c hc⟩
      show (fmt1 v ++ (([] : List PyStr).map (fun w => ("; ").data ++ w)).flatten).getLast?
        = some c
      simp only [List.map_nil, List.flatten_nil, List.append_nil]
      exact hc
    | cons u vs =>
      obtain ⟨c, hc, hd⟩ := ih (by simp)
      refine ⟨c, ?_, hd⟩
      have hne : joinSep ("; ").data ((u :: vs).map fmt1) ≠ [] := by
        intro hcon
        rw [hcon] at hc
        cases hc
      have hstruct : joinSep ("; ").data ((v :: u :: vs).map fmt1) =
          fmt1 v ++ (("; ").data ++ joinSep ("; ").data ((u :: vs).map fmt1)) := by
        show fmt1 v ++ (((fmt1 u) :: (vs.map fmt1)).map (fun w => ("; ").data ++ w)).flatten = _
        congr 1
      rw [hstruct,
        getLast?_append_of_ne_nil (fun hcon =>
          absurd (List.append_eq_nil.mp hcon).1 (by decide)),
        getLast?_append_of_ne_nil hne]
      exact hc

theorem split_semi_join :
    ∀ (ts : List PyStr) (a : PyStr), ';' ∉ a → (∀ t ∈ ts, ';' ∉ t) →
      splitOnChar ';' (a ++ (ts.map (fun u => ("; ").data ++ u)).flatten) =
        a :: ts.map (fun u => ' ' :: u) := by
  intro ts
  induction ts with
  | nil =>
    intro a ha _
    simp only [List.map_nil, List.flatten_nil, List.append_nil]
    rw [splitOnChar_not_mem ha]
  | cons u ts ih =>
    intro a ha ht
    have hshape : a ++ (((u :: ts).map (fun w => ("; ").data ++ w)).flatten) =
        a ++ ';' :: ((' ' :: u) ++ ((ts.map (fun w => ("; ").data ++ w)).flatten)) := by
      rw [List.map_cons, List.flatten_cons]
      congr 1
    rw [hshape, splitOnChar_append _ ha,
      ih (' ' :: u) (by
        intro hcon
        rcases List.mem_cons.mp hcon with h | h
        · exact absurd h (by decide)
        · exact ht u (List.mem_cons_self u ts) h)
      (fun t htm => ht t (List.mem_cons_of_mem u htm))]
    rw [List.map_cons]

theorem floatList_fmt1 {vals : List ℚ} (h : ∀ v ∈ vals, Tenth v) :
    floatList (vals.map fmt1) = some vals := by
  induction vals with
  | nil => rfl
  | cons v vs ih =>
    show (match parseFloat (fmt1 v) with
      | some w => (floatList (vs.map fmt1)).map (fun ws => w :: ws)
      | none => none) = some (v :: vs)
    rw [parseFloat_fmt1 (h v (List.mem_cons_self v vs)),
      ih (fun w hw => h w (List.mem_cons_of_mem v hw))]
    rfl

theorem bulletMatch_bulletLine {cat : PyStr} {vals : List ℚ} (hcat : ':' ∉ cat)
    (_hvne : vals ≠ []) :
    bulletMatch (bulletLine cat vals) =
      some (' ' :: cat, ' ' :: joinSep ("; ").data (vals.map fmt1)) := by
  have hline : bulletLine cat vals =
      '•' :: ((' ' :: cat) ++ ':' :: (' ' :: joinSep ("; ").data (vals.map fmt1))) := by
    rw [bulletLine]
    simp
  have hallne : ∀ c ∈ ' ' :: cat, (c != ':') = true := by
    intro c hc
    rcases List.mem_cons.mp hc with h | h
    · subst h
      decide
    · exact bne_iff_ne.mpr (fun he => hcat (he ▸ h))
  have hdrop : ((' ' :: cat) ++ ':' :: (' ' :: joinSep ("; ").data (vals.map fmt1))).dropWhile
      (fun c => c != ':') = ':' :: (' ' :: joinSep ("; ").data (vals.map fmt1)) := by
    rw [dropWhile_all_append _ hallne, List.dropWhile_cons, if_neg (by decide)]
  have htake : ((' ' :: cat) ++ ':' :: (' ' :: joinSep ("; ").data (vals.map fmt1))).takeWhile
      (fun c => c != ':') = ' ' :: cat := by
    rw [takeWhile_all_append _ hallne, List.takeWhile_cons, if_neg (by decide), List.append_nil]
  rw [hline]
  show (if '•' = '•' then _ else none) = _
  rw [if_pos rfl, hdrop, htake]
  simp

theorem parseStep_bulletLine (st : ParseSt) {cat : PyStr} {vals : List ℚ}
    (hcat : ':' ∉ cat) (hcatstrip : pyStrip cat = cat) (hvne : vals ≠ [])
    (hten : ∀ v ∈ vals, Tenth v) :
    parseStep st (bulletLine cat vals) =
      .ok { st with
            meta := { st.meta with
                      category_history := assocSet cat vals st.meta.category_history } } := by
  obtain ⟨e, he, hed⟩ := joinSep_fmt1_getLast vals hvne
  have hlast : (bulletLine cat vals).getLast? = some e := by
    rw [bulletLine, getLast?_append_of_ne_nil (fun hcon => by
      rw [hcon] at he
      cases he)]
    exact he
  have hstrip : pyStrip (bulletLine cat vals) = bulletLine cat vals := by
    refine pyStrip_eq_self ?_ ?_
    · intro x hx
      have : (bulletLine cat vals).head? = some '•' := by
        rw [show bulletLine cat vals = '•' ::
          ((' ' :: cat) ++ (": ").data ++ joinSep ("; ").data (vals.map fmt1)) from by
            rw [bulletLine]; simp, List.head?_cons]
      rw [this] at hx
      have : '•' = x := by injection hx
      subst this
      decide
    · intro x hx
      rw [hlast] at hx
      have : e = x := by injection hx
      subst this
      exact isDigit_not_ws hed
  have hmatch := bulletMatch_bulletLine hcat hvne
  simp only [parseStep, hstrip]
  rw [if_neg (fun hcontra => by
    rw [not_SR_suffix_of_last hlast (isDigit_ne hed 't' (by decide))] at hcontra
    exact absurd hcontra.1 (by decide))]
  rw [hmatch]
  obtain ⟨v, vs, rfl⟩ : ∃ v vs, vals = v :: vs := by
    cases vals with
    | nil => exact absurd rfl hvne
    | cons v vs => exact ⟨v, vs, rfl⟩
  have hsplit : splitOnChar ';' (' ' :: joinSep ("; ").data ((v :: vs).map fmt1)) =
      ((v :: vs).map fmt1).map (fun u => ' ' :: u) := by
    have hshape : ' ' :: joinSep ("; ").data ((v :: vs).map fmt1) =
        (' ' :: fmt1 v) ++ ((vs.map fmt1).map (fun u => ("; ").data ++ u)).flatten := rfl
    rw [hshape, split_semi_join (vs.map fmt1) (' ' :: fmt1 v)
      (fun hcon => by
        rcases List.mem_cons.mp hcon with h | h
        · exact absurd h (by decide)
        · exact fmt1_no_semi v h)
      (fun t htm => by
        rcases List.mem_map.mp htm with ⟨x, _, rfl⟩
        exact fmt1_no_semi x)]
    rfl
  have hstripmap : (((v :: vs).map fmt1).map (fun u => ' ' :: u)).map pyStrip =
      (v :: vs).map fmt1 := by
    rw [List.map_map, List.map_map]
    refine List.map_congr_left ?_
    intro x _
    show pyStrip (' ' :: fmt1 x) = fmt1 x
    rw [pyStrip_cons_ws (by decide), pyStrip_fmt1]
  have hfilter : ((v :: vs).map fmt1).filter (fun t => t ≠ []) = (v :: vs).map fmt1 := by
    refine List.filter_eq_self.mpr ?_
    intro t ht
    rcases List.mem_map.mp ht with ⟨x, _, rfl⟩
    simp [fmt1_ne_nil x]
  show bulletStep st (' ' :: cat, ' ' :: joinSep ("; ").data ((v :: vs).map fmt1)) = _
  rw [bulletStep]
  simp only [hsplit, hstripmap, hfilter, floatList_fmt1 hten]
  rw [show pyStrip (' ' :: cat) = cat from by rw [pyStrip_cons_ws (by decide), hcatstrip]]

/-!
## Date shapes
-/

theorem dateShaped_length {d : PyStr} (h : dateShaped d = true) : d.length = 10 := by
  rw [dateShaped, Bool.and_eq_true] at h
  exact beq_iff_eq.mp h.1

theorem isDigitAt_elim {d : PyStr} {i : ℕ} (hi : isDigitAt (d ++ [':']) i = true)
    (hlt : i < d.length) {c : Char} (hc : d[i]? = some c) : c.isDigit = true := by
  rw [isDigitAt, List.getElem?_append_left (by omega), hc] at hi
  exact hi

theorem isCharAt_elim {d : PyStr} {i : ℕ} {k : Char} (hi : isCharAt (d ++ [':']) i k = true)
    (hlt : i < d.length) {c : Char} (hc : d[i]? = some c) : c = k := by
  rw [isCharAt, List.getElem?_append_left (by omega), hc] at hi
  exact Option.some.inj (eq_of_beq hi)

theorem dateShaped_chars {d : PyStr} (h : dateShaped d = true) :
    ∀ c ∈ d, c.isDigit = true ∨ c = '-' := by
  intro c hc
  have hlen := dateShaped_length h
  rw [dateShaped, Bool.and_eq_true] at h
  have hr := h.2
  rw [dateRegexMatch] at hr
  simp only [Bool.and_eq_true] at hr
  obtain ⟨⟨⟨⟨⟨⟨⟨⟨⟨⟨h0, h1⟩, h2⟩, h3⟩, h4⟩, h5⟩, h6⟩, h7⟩, h8⟩, h9⟩, _⟩ := hr
  obtain ⟨i, hci⟩ := List.mem_iff_getElem?.mp hc
  have hlt : i < d.length := (List.getElem?_eq_some_iff.mp hci).1
  rw [hlen] at hlt
  interval_cases i
  · exact Or.inl (isDigitAt_elim h0 (by omega) hci)
  · exact Or.inl (isDigitAt_elim h1 (by omega) hci)
  · exact Or.inl (isDigitAt_elim h2 (by omega) hci)
  · exact Or.inl (isDigitAt_elim h3 (by omega) hci)
  · exact Or.inr (isCharAt_elim h4 (by omega) hci)
  · exact Or.inl (isDigitAt_elim h5 (by omega) hci)
  · exact Or.inl (isDigitAt_elim h6 (by omega) hci)
  · exact Or.inr (isCharAt_elim h7 (by omega) hci)
  · exact Or.inl (isDigitAt_elim h8 (by omega) hci)
  · exact Or.inl (isDigitAt_elim h9 (by omega) hci)

theorem dateShaped_no_colon {d : PyStr} (h : dateShaped d = true) : ':' ∉ d := by
  intro hc
  rcases dateShaped_chars h ':' hc with h1 | h1 <;> exact absurd h1 (by decide)

theorem dateShaped_not_ws {d : PyStr} (h : dateShaped d = true) :
    ∀ c ∈ d, c.isWhitespace = false := by
  intro c hc
  rcases dateShaped_chars h c hc with h1 | h1
  · exact isDigit_not_ws h1
  · subst h1
    decide

theorem dateShaped_head {d : PyStr} (h : dateShaped d = true) :
    ∃ c, d.head? = some c ∧ c.isDigit = true := by
  have hlen := dateShaped_length h
  cases hd : d with
  | nil => rw [hd] at hlen; cases hlen
  | cons c0 rest =>
    refine ⟨c0, rfl, ?_⟩
    have : c0 ∈ d := by rw [hd]; exact List.mem_cons_self c0 rest
    rcases dateShaped_chars h c0 this with h1 | h1
    · exact h1
    · subst h1
      rw [dateShaped, Bool.and_eq_true] at h
      have hr := h.2
      rw [dateRegexMatch] at hr
      simp only [Bool.and_eq_true] at hr
      have h0 := hr.1.1.1.1.1.1.1.1.1.1
      have : d[0]? = some '-' := by rw [hd]; simp
      have := isDigitAt_elim h0 (by omega) this
      exact absurd this (by decide)

theorem dateRegex_of_dateShaped {d : PyStr} (h : dateShaped d = true) (r : PyStr) :
    dateRegexMatch (d ++ ':' :: r) = true := by
  have hlen := dateShaped_length h
  rw [dateShaped, Bool.and_eq_true] at h
  have hr := h.2
  rw [dateRegexMatch] at hr ⊢
  simp only [Bool.and_eq_true] at hr ⊢
  obtain ⟨⟨⟨⟨⟨⟨⟨⟨⟨⟨h0, h1⟩, h2⟩, h3⟩, h4⟩, h5⟩, h6⟩, h7⟩, h8⟩, h9⟩, _⟩ := hr
  have htr : ∀ i, i < 10 → (d ++ ':' :: r)[i]? = (d ++ [':'])[i]? := by
    intro i hi
    rw [List.getElem?_append_left (by omega), List.getElem?_append_left (by omega)]
  have h10 : isCharAt (d ++ ':' :: r) 10 ':' = true := by
    rw [isCharAt, List.getElem?_append_right (by omega), hlen]
    simp
  refine ⟨⟨⟨⟨⟨⟨⟨⟨⟨⟨?_, ?_⟩, ?_⟩, ?_⟩, ?_⟩, ?_⟩, ?_⟩, ?_⟩, ?_⟩, ?_⟩, h10⟩
  · rw [isDigitAt, htr 0 (by omega)]
    exact h0
  · rw [isDigitAt, htr 1 (by omega)]
    exact h1
  · rw [isDigitAt, htr 2 (by omega)]
    exact h2
  · rw [isDigitAt, htr 3 (by omega)]
    exact h3
  · rw [isCharAt, htr 4 (by omega)]
    exact h4
  · rw [isDigitAt, htr 5 (by omega)]
    exact h5
  · rw [isDigitAt, htr 6 (by omega)]
    exact h6
  · rw [isCharAt, htr 7 (by omega)]
    exact h7
  · rw [isDigitAt, htr 8 (by omega)]
    exact h8
  · rw [isDigitAt, htr 9 (by omega)]
    exact h9

theorem parseStep_dateLine (st : ParseSt) {d : PyStr} {v : ℚ}
    (hflag : st.overall_header_seen = true) (hd : dateShaped d = true) (hv : Tenth v) :
    parseStep st (dateLine (d, v)) =
      .ok { st with
            meta := { st.meta with
                      overall_history := st.meta.overall_history ++ [(d, v)] } } := by
  obtain ⟨c0, hc0, hc0d⟩ := dateShaped_head hd
  have hdne : d ≠ [] := by
    intro hcon
    rw [hcon] at hc0
    cases hc0
  have hline : dateLine (d, v) = d ++ ':' :: (' ' :: fmt1 v) := by
    show (d ++ (": ").data) ++ fmt1 v = _
    simp
  have hhead : (dateLine (d, v)).head? = some c0 := by
    show ((d ++ (": ").data) ++ fmt1 v).head? = some c0
    rw [List.head?_append, List.head?_append, hc0]
    rfl
  obtain ⟨ed, hed⟩ : ∃ ed, (fmt1 v).getLast? = some ed := by
    cases hg : (fmt1 v).getLast? with
    | none => exact absurd (List.getLast?_eq_none_iff.mp hg) (fmt1_ne_nil v)
    | some c => exact ⟨c, rfl⟩
  have hedd : ed.isDigit = true := fmt1_getLast_digit v ed hed
  have hlast : (dateLine (d, v)).getLast? = some ed := by
    show ((d ++ (": ").data) ++ fmt1 v).getLast? = some ed
    rw [getLast?_append_of_ne_nil (fmt1_ne_nil v)]
    exact hed
  have hstrip : pyStrip (dateLine (d, v)) = dateLine (d, v) := by
    refine pyStrip_eq_self ?_ ?_
    · intro x hx
      rw [hhead] at hx
      have : c0 = x := by injection hx
      subst this
      exact isDigit_not_ws hc0d
    · intro x hx
      rw [hlast] at hx
      have : ed = x := by injection hx
      subst this
      exact isDigit_not_ws hedd
  obtain ⟨d0, drest, hdc⟩ : ∃ d0 drest, d = d0 :: drest := by
    cases d with
    | nil => exact absurd rfl hdne
    | cons a b => exact ⟨a, b, rfl⟩
  have hc0' : d0 = c0 := by
    rw [hdc] at hc0
    injection hc0
  simp only [parseStep, hstrip]
  rw [if_neg (fun hcontra => by
    rw [not_SR_suffix_of_last hlast (isDigit_ne hedd 't' (by decide))] at hcontra
    exact absurd hcontra.1 (by decide))]
  rw [show bulletMatch (dateLine (d, v)) = none from by
    rw [hline, hdc, List.cons_append]
    exact bulletMatch_cons_ne _ (hc0' ▸ isDigit_ne hc0d '•' (by decide))]
  rw [if_neg (fun hcontra => by
    have hh := congrArg List.head? hcontra
    rw [hhead] at hh
    rw [show overallHeaderLine.head? = some 'O' from by decide] at hh
    have : c0 = 'O' := by injection hh
    subst this
    exact absurd hc0d (by decide))]
  rw [if_pos ⟨hflag, by rw [hline]; exact dateRegex_of_dateShaped hd (' ' :: fmt1 v)⟩]
  have hsplit : splitOnChar ':' (dateLine (d, v)) = [d, ' ' :: fmt1 v] := by
    rw [hline, splitOnChar_append _ (dateShaped_no_colon hd), splitOnChar_not_mem (fun hcon => by
      rcases List.mem_cons.mp hcon with h | h
      · exact absurd h (by decide)
      · exact fmt1_no_colon v h)]
  simp only [dateStep, hsplit]
  rw [show pyStrip (' ' :: fmt1 v) = fmt1 v from by
    rw [pyStrip_cons_ws (by decide), pyStrip_fmt1]]
  rw [parseFloat_fmt1 hv]
  rw [show pyStrip d = d from pyStrip_eq_self
    (fun x hx => dateShaped_not_ws hd x (List.mem_of_mem_head? hx))
    (fun x hx => dateShaped_not_ws hd x (List.mem_of_mem_getLast? hx))]

/-!
## Association-list lemmas
-/

theorem assocLookup_assocSet_self {β : Type} (k : PyStr) (v : β) (l : List (PyStr × β)) :
    assocLookup k (assocSet k v l) = some v := by
  induction l with
  | nil => simp [assocSet, assocLookup]
  | cons p rest ih =>
    by_cases hp : p.1 = k
    · rw [assocSet, if_pos hp, assocLookup, if_pos rfl]
    · rw [assocSet, if_neg hp, assocLookup, if_neg hp, ih]

theorem assocLookup_assocSet_ne {β : Type} {q k : PyStr} (h : q ≠ k) (v : β)
    (l : List (PyStr × β)) : assocLookup q (assocSet k v l) = assocLookup q l := by
  induction l with
  | nil =>
    simp only [assocSet, assocLookup]
    rw [if_neg (fun he => h he.symm)]
  | cons p rest ih =>
    by_cases hp : p.1 = k
    · simp only [assocSet, if_pos hp, assocLookup]
      rw [if_neg (fun he => h he.symm), if_neg (fun he => h (by rw [← he, hp]))]
    · simp only [assocSet, if_neg hp, assocLookup]
      by_cases hpq : p.1 = q
      · rw [if_pos hpq, if_pos hpq]
      · rw [if_neg hpq, if_neg hpq, ih]

theorem assocSet_append_of_lookup_none {β : Type} {k : PyStr} {init : List (PyStr × β)}
    (h : assocLookup k init = none) (v : β) : assocSet k v init = init ++ [(k, v)] := by
  induction init with
  | nil => rfl
  | cons p rest ih =>
    rw [assocLookup] at h
    by_cases hp : p.1 = k
    · rw [if_pos hp] at h
      cases h
    · rw [if_neg hp] at h
      rw [assocSet, if_neg hp, ih h]
      rfl

/-!
## The merge loop
-/

theorem category_average_of_ne_nil {sub : List (PyStr × ℤ)} (h : sub ≠ []) :
    category_average sub = some (avgQ sub) := by
  cases sub with
  | nil => exact absurd rfl h
  | cons a b => rfl

theorem stepCH_lookup_self (ch : List (PyStr × List ℚ)) (p : PyStr × List (PyStr × ℤ))
    (a : ℚ) :
    assocLookup p.1 (stepCH ch p a) = some ((assocLookup p.1 ch).getD [] ++ [round1 a]) := by
  rw [stepCH]
  cases hl : assocLookup p.1 ch with
  | none =>
    simp only [hl, Option.isNone_none, eq_self_iff_true, if_true]
    rw [assocLookup_assocSet_self, assocLookup_assocSet_self]
    rfl
  | some l =>
    simp only [hl, Option.isNone_some, Bool.false_eq_true, if_false]
    rw [assocLookup_assocSet_self]

theorem stepCH_lookup_ne {q : PyStr} {p : PyStr × List (PyStr × ℤ)} (h : q ≠ p.1)
    (ch : List (PyStr × List ℚ)) (a : ℚ) :
    assocLookup q (stepCH ch p a) = assocLookup q ch := by
  rw [stepCH]
  cases hl : assocLookup p.1 ch with
  | none =>
    simp only [hl, Option.isNone_none, eq_self_iff_true, if_true]
    rw [assocLookup_assocSet_ne h, assocLookup_assocSet_ne h]
  | some l =>
    simp only [hl, Option.isNone_some, Bool.false_eq_true, if_false]
    rw [assocLookup_assocSet_ne h]

theorem mergeCat_ok (scores : List (PyStr × List (PyStr × ℤ))) :
    ∀ prev : List (PyStr × List ℚ), (∀ p ∈ scores, p.2 ≠ []) →
      ∃ ch, mergeCat prev scores = .ok ch ∧
        (∀ q, q ∉ scores.map Prod.fst → assocLookup q ch = assocLookup q prev) ∧
        ((scores.map Prod.fst).Nodup →
          ∀ p ∈ scores,
            assocLookup p.1 ch = some ((assocLookup p.1 prev).getD [] ++ [round1 (avgQ p.2)])) := by
  induction scores with
  | nil =>
    intro prev _
    exact ⟨prev, rfl, fun q _ => rfl, fun _ p hp => absurd hp (by simp)⟩
  | cons p rest ih =>
    intro prev hall
    have hp2 : p.2 ≠ [] := hall p (List.mem_cons_self p rest)
    have hcons : mergeCat prev (p :: rest) = mergeCat (stepCH prev p (avgQ p.2)) rest := by
      rw [mergeCat, List.foldlM_cons, category_average_of_ne_nil hp2]
      rfl
    obtain ⟨ch, hch, habs, hpres⟩ :=
      ih (stepCH prev p (avgQ p.2)) (fun q hq => hall q (List.mem_cons_of_mem p hq))
    refine ⟨ch, by rw [hcons]; exact hch, ?_, ?_⟩
    · intro q hq
      rw [List.map_cons] at hq
      have hq1 : q ≠ p.1 := fun he => hq (he ▸ List.mem_cons_self _ _)
      have hq2 : q ∉ rest.map Prod.fst := fun hm => hq (List.mem_cons_of_mem _ hm)
      rw [habs q hq2, stepCH_lookup_ne hq1]
    · intro hnd p' hp'
      rw [List.map_cons, List.nodup_cons] at hnd
      rcases List.mem_cons.mp hp' with he | hm
      · subst he
        rw [habs p'.1 hnd.1, stepCH_lookup_self]
      · have hne : p'.1 ≠ p.1 := by
          intro he
          exact hnd.1 (he ▸ List.mem_map_of_mem Prod.fst hm)
        rw [hpres hnd.2 p' hm, stepCH_lookup_ne hne]

theorem avgList_ok {scores : List (PyStr × List (PyStr × ℤ))} (h : ∀ p ∈ scores, p.2 ≠ []) :
    avgList scores = .ok (scores.map (fun p => avgQ p.2)) := by
  induction scores with
  | nil => rfl
  | cons p rest ih =>
    show (match category_average p.2 with
      | some a => (avgList rest).map (fun l => a :: l)
      | none => .error .statisticsError) = _
    rw [category_average_of_ne_nil (h p (List.mem_cons_self p rest)),
      ih (fun q hq => h q (List.mem_cons_of_mem p hq))]
    rfl

theorem overallScore_ok {scores : List (PyStr × List (PyStr × ℤ))} (hne : scores ≠ [])
    (h : ∀ p ∈ scores, p.2 ≠ []) :
    overallScore scores =
      .ok (round1 (qdiv (qsum (scores.map (fun p => avgQ p.2)))
        ((scores.length : ℤ) : ℚ))) := by
  obtain ⟨p, rest, rfl⟩ : ∃ p rest, scores = p :: rest := by
    cases scores with
    | nil => exact absurd rfl hne
    | cons a b => exact ⟨a, b, rfl⟩
  rw [overallScore, avgList_ok h]
  show Except.ok (round1 (qdiv (qsum ((p :: rest).map (fun q => avgQ q.2)))
      ((((p :: rest).map (fun q => avgQ q.2)).length : ℤ) : ℚ))) = _
  rw [List.length_map]

/-!
## Folding the parser over serialized segments
-/

theorem parse_bullets_fold (bl : List (PyStr × List ℚ)) :
    ∀ st : ParseSt,
      (∀ p ∈ bl, ':' ∉ p.1 ∧ pyStrip p.1 = p.1 ∧ p.2 ≠ [] ∧ ∀ v ∈ p.2, Tenth v) →
      (bl.map (fun p => bulletLine p.1 p.2)).foldlM parseStep st =
        .ok { st with
              meta := { st.meta with
                        category_history :=
                          bl.foldl (fun ch p => assocSet p.1 p.2 ch)
                            st.meta.category_history } } := by
  induction bl with
  | nil => intro st _; rfl
  | cons p bl ih =>
    intro st hall
    obtain ⟨h1, h2, h3, h4⟩ := hall p (List.mem_cons_self p bl)
    rw [List.map_cons, List.foldlM_cons, parseStep_bulletLine st h1 h2 h3 h4]
    show (bl.map (fun p => bulletLine p.1 p.2)).foldlM parseStep _ = _
    rw [ih _ (fun q hq => hall q (List.mem_cons_of_mem p hq))]
    rfl

theorem parseStep_dateLine_pair (st : ParseSt) {p : PyStr × ℚ}
    (hflag : st.overall_header_seen = true) (hd : dateShaped p.1 = true)
    (hv : Tenth p.2) :
    parseStep st (dateLine p) =
      .ok { st with
            meta := { st.meta with
                      overall_history := st.meta.overall_history ++ [p] } } :=
  parseStep_dateLine st hflag hd hv

theorem parse_dates_fold (ds : List (PyStr × ℚ)) :
    ∀ st : ParseSt, st.overall_header_seen = true →
      (∀ p ∈ ds, dateShaped p.1 = true ∧ Tenth p.2) →
      (ds.map dateLine).foldlM parseStep st =
        .ok { st with
              meta := { st.meta with
                        overall_history := st.meta.overall_history ++ ds } } := by
  induction ds with
  | nil =>
    intro st _ _
    show Except.ok st = _
    rw [List.append_nil]
  | cons p ds ih =>
    intro st hflag hall
    obtain ⟨h1, h2⟩ := hall p (List.mem_cons_self p ds)
    rw [List.map_cons, List.foldlM_cons, parseStep_dateLine_pair st hflag h1 h2]
    show (ds.map dateLine).foldlM parseStep
      { st with meta := { st.meta with
        overall_history := st.meta.overall_history ++ [p] } } = _
    rw [ih { st with meta := { st.meta with
        overall_history := st.meta.overall_history ++ [p] } }
      hflag (fun q hq => hall q (List.mem_cons_of_mem p hq))]
    simp

theorem assocLookup_append_right_of_none {β : Type} {q : PyStr}
    {init : List (PyStr × β)} (h : assocLookup q init = none) (tail : List (PyStr × β)) :
    assocLookup q (init ++ tail) = assocLookup q tail := by
  induction init with
  | nil => rfl
  | cons r rest ih =>
    by_cases hr : r.1 = q
    · exfalso
      have hthis : assocLookup q (r :: rest) = some r.2 := by
        show (if r.1 = q then some r.2 else assocLookup q rest) = some r.2
        rw [if_pos hr]
      rw [hthis] at h
      cases h
    · have h2 : assocLookup q rest = none := by
        have hthis : assocLookup q (r :: rest) = assocLookup q rest := by
          show (if r.1 = q then some r.2 else assocLookup q rest) = _
          rw [if_neg hr]
        rw [← hthis]
        exact h
      rw [List.cons_append]
      show (if r.1 = q then some r.2 else assocLookup q (rest ++ tail)) = _
      rw [if_neg hr, ih h2]

theorem foldl_assocSet_fresh (bl : List (PyStr × List ℚ)) :
    ∀ init : List (PyStr × List ℚ),
      (∀ p ∈ bl, assocLookup p.1 init = none) → (bl.map Prod.fst).Nodup →
      bl.foldl (fun ch p => assocSet p.1 p.2 ch) init = init ++ bl := by
  induction bl with
  | nil => intro init _ _; simp
  | cons p bl ih =>
    intro init hfresh hnd
    rw [List.map_cons, List.nodup_cons] at hnd
    rw [List.foldl_cons,
      assocSet_append_of_lookup_none (hfresh p (List.mem_cons_self p bl)) p.2]
    rw [ih (init ++ [(p.1, p.2)]) ?_ hnd.2]
    · simp
    · intro q hq
      have hqp : q.1 ≠ p.1 := by
        intro he
        exact hnd.1 (he ▸ List.mem_map_of_mem Prod.fst hq)
      rw [assocLookup_append_right_of_none (hfresh q (List.mem_cons_of_mem p hq))]
      show (if p.1 = q.1 then some p.2 else assocLookup q.1 []) = none
      rw [if_neg (fun he => hqp he.symm)]
      rfl

theorem assocLookup_mem {β : Type} {q : PyStr} {v : β} {l : List (PyStr × β)}
    (h : assocLookup q l = some v) : (q, v) ∈ l := by
  induction l with
  | nil => cases h
  | cons p rest ih =>
    by_cases hp : p.1 = q
    · rw [assocLookup, if_pos hp] at h
      have hv : p.2 = v := by injection h
      have : (q, v) = p := by
        rw [← hp, ← hv]
      rw [this]
      exact List.mem_cons_self p rest
    · rw [assocLookup, if_neg hp] at h
      exact List.mem_cons_of_mem p (ih h)

theorem ok_bind {ε α β : Type} (a : α) (f : α → Except ε β) :
    (Except.ok a : Except ε α) >>= f = f a := rfl

/-- The amended round-trip statement, proved below as claim C1's theorem:
under well-formedness conditions on the record, parsing the serialized
report recovers the merged `OverallHistory` exactly and the merged
`CategoryHistory` restricted to the categories of the current score
matrix (categories absent from the matrix are not serialized at all,
which is what refutes the unrestricted claim). -/
theorem roundtrip_restricted (player_name player_type : PyStr)
    (scores : List (PyStr × List (PyStr × ℤ)))
    (prev_cat : List (PyStr × List ℚ)) (prev_ov : List (PyStr × ℚ))
    (today time : PyStr)
    (hsne : scores ≠ [])
    (hsub : ∀ p ∈ scores, p.2 ≠ [])
    (hnd : (scores.map Prod.fst).Nodup)
    (hcats : ∀ p ∈ scores, ':' ∉ p.1 ∧ pyStrip p.1 = p.1)
    (hprev : ∀ p ∈ prev_cat, ∀ v ∈ p.2, Tenth v)
    (hov : ∀ p ∈ prev_ov, dateShaped p.1 = true ∧ Tenth p.2)
    (htoday : dateShaped today = true)
    (htime : timeOk time = true)
    (hname : '–' ∉ player_name) (hty : '–' ∉ player_type) :
    ∃ ch score L m,
      mergeCat prev_cat scores = .ok ch ∧
      overallScore scores = .ok score ∧
      create_docx_report player_name player_type scores prev_cat prev_ov today time
        = .ok L ∧
      parse_docx_report L = .ok m ∧
      m.category_history = scores.map (fun p => (p.1, (assocLookup p.1 ch).getD [])) ∧
      m.overall_history = prev_ov ++ [(today, score)] := by
  obtain ⟨ch, hch, habs, hpres⟩ := mergeCat_ok scores prev_cat hsub
  have hpres2 := hpres hnd
  set score := round1 (qdiv (qsum (scores.map (fun p => avgQ p.2)))
    ((scores.length : ℤ) : ℚ)) with hscore_def
  have hscore : overallScore scores = .ok score := overallScore_ok hsne hsub
  set bl : List (PyStr × List ℚ) :=
    scores.map (fun p => (p.1, (assocLookup p.1 ch).getD [])) with hbl_def
  set ohist : List (PyStr × ℚ) := prev_ov ++ [(today, score)] with hohist_def
  set L : List PyStr :=
    ([headingLine player_name player_type, genLine today time, [], []] ++
     bl.map (fun p => bulletLine p.1 p.2) ++
     [[], overallRatingLine score, List.replicate 38 '-', ("Overall Ratings by Date:").data] ++
     ohist.map dateLine) with hL_def
  have hL : create_docx_report player_name player_type scores prev_cat prev_ov today time
      = .ok L := by
    simp only [create_docx_report, hch, hscore, ok_bind]
    rw [hL_def, hbl_def, hohist_def, List.map_map]
    rfl
  obtain ⟨pn, pt, hstep1⟩ := parseStep_headingLine ({} : ParseSt) hname hty
  have hblhyp : ∀ p ∈ bl, ':' ∉ p.1 ∧ pyStrip p.1 = p.1 ∧ p.2 ≠ [] ∧ ∀ v ∈ p.2, Tenth v := by
    intro p hp
    rw [hbl_def] at hp
    rcases List.mem_map.mp hp with ⟨q, hq, rfl⟩
    obtain ⟨hc1, hc2⟩ := hcats q hq
    have hlk := hpres2 q hq
    refine ⟨hc1, hc2, ?_, ?_⟩
    · rw [hlk]
      simp
    · intro v hv
      rw [hlk] at hv
      simp only [Option.getD_some] at hv
      rcases List.mem_append.mp hv with hv | hv
      · cases hl0 : assocLookup q.1 prev_cat with
        | none => rw [hl0] at hv; cases hv
        | some l0 =>
          rw [hl0] at hv
          exact hprev _ (assocLookup_mem hl0) v hv
      · rw [List.mem_singleton] at hv
        subst hv
        exact Tenth_round1 _
  have hohyp : ∀ p ∈ ohist, dateShaped p.1 = true ∧ Tenth p.2 := by
    intro p hp
    rw [hohist_def] at hp
    rcases List.mem_append.mp hp with hp | hp
    · exact hov p hp
    · rw [List.mem_singleton] at hp
      subst hp
      exact ⟨htoday, Tenth_round1 _⟩
  have hndbl : (bl.map Prod.fst).Nodup := by
    rw [hbl_def, List.map_map]
    exact hnd
  have hA : ([headingLine player_name player_type, genLine today time, [], []] :
      List PyStr).foldlM parseStep ({} : ParseSt) =
      .ok ⟨⟨some pt, some pn, [], []⟩, false⟩ := by
    rw [List.foldlM_cons, hstep1, ok_bind]
    rw [List.foldlM_cons, parseStep_genLine _ today htime, ok_bind]
    rw [List.foldlM_cons, parseStep_blank _ [] rfl, ok_bind]
    rw [List.foldlM_cons, parseStep_blank _ [] rfl, ok_bind]
    rfl
  have hAB : (([headingLine player_name player_type, genLine today time, [], []] ++
      bl.map (fun p => bulletLine p.1 p.2)) : List PyStr).foldlM parseStep ({} : ParseSt) =
      .ok ⟨⟨some pt, some pn, bl, []⟩, false⟩ := by
    rw [List.foldlM_append, hA, ok_bind,
      parse_bullets_fold bl ⟨⟨some pt, some pn, [], []⟩, false⟩ hblhyp]
    rw [foldl_assocSet_fresh bl [] (fun p _ => rfl) hndbl]
    rfl
  have hABB : ((([headingLine player_name player_type, genLine today time, [], []] ++
      bl.map (fun p => bulletLine p.1 p.2)) ++
      [[], overallRatingLine score, List.replicate 38 '-',
        ("Overall Ratings by Date:").data]) : List PyStr).foldlM parseStep ({} : ParseSt) =
      .ok ⟨⟨some pt, some pn, bl, []⟩, true⟩ := by
    rw [List.foldlM_append, hAB, ok_bind]
    rw [List.foldlM_cons, parseStep_blank _ [] rfl, ok_bind]
    rw [List.foldlM_cons, parseStep_overallRatingLine _ score, ok_bind]
    rw [List.foldlM_cons, parseStep_sep, ok_bind]
    rw [List.foldlM_cons, parseStep_header _ _ (by decide), ok_bind]
    rfl
  have hfold : L.foldlM parseStep ({} : ParseSt) =
      .ok ⟨⟨some pt, some pn, bl, ohist⟩, true⟩ := by
    rw [hL_def, List.foldlM_append, hABB, ok_bind,
      parse_dates_fold ohist ⟨⟨some pt, some pn, bl, []⟩, true⟩ rfl hohyp]
    rfl
  refine ⟨ch, score, L, ⟨some pt, some pn, bl, ohist⟩, hch, hscore, hL, ?_, ?_, ?_⟩
  · rw [parse_docx_report, hfold]
    rfl
  · rw [hbl_def]
  · rw [hohist_def]

/-!
## The heap merge loop
-/

theorem stepHeap_existing {s : List (PyStr × Nat) × List (List ℚ)}
    {p : PyStr × List (PyStr × ℤ)} {ρ : Nat} (hl : assocLookup p.1 s.1 = some ρ) (a : ℚ) :
    stepHeap s p a = .ok (s.1, s.2.set ρ (s.2.getD ρ [] ++ [round1 a])) := by
  rw [stepHeap]
  simp only [hl, Option.isNone_some, Bool.false_eq_true, if_false]

theorem stepHeap_fresh {s : List (PyStr × Nat) × List (List ℚ)}
    {p : PyStr × List (PyStr × ℤ)} (hl : assocLookup p.1 s.1 = none) (a : ℚ) :
    stepHeap s p a =
      .ok (assocSet p.1 s.2.length s.1, (s.2 ++ [[]]).set s.2.length [round1 a]) := by
  rw [stepHeap]
  simp only [hl, Option.isNone_none, eq_self_iff_true, if_true]
  rw [assocLookup_assocSet_self]
  have hcell : (s.2 ++ [[]]).getD s.2.length [] = ([] : List ℚ) := by
    rw [List.getD_eq_getElem?_getD, List.getElem?_append_right (le_refl _)]
    simp
  show Except.ok (assocSet p.1 s.2.length s.1, (s.2 ++ [[]]).set s.2.length
    ((s.2 ++ [[]]).getD s.2.length [] ++ [round1 a])) = _
  rw [hcell]
  rfl

theorem mergeCatHeap_fold_preserve {cat : PyStr} {r base : Nat} :
    ∀ (l : List (PyStr × List (PyStr × ℤ))) (s : List (PyStr × Nat) × List (List ℚ)),
      (∀ p ∈ l, p.2 ≠ []) → cat ∉ l.map Prod.fst →
      assocLookup cat s.1 = some r →
      (∀ c ρ, c ≠ cat → assocLookup c s.1 = some ρ → ρ ≠ r) →
      r < base → base ≤ s.2.length →
      ∃ s', l.foldlM (fun s p =>
            match category_average p.2 with
            | none => Except.error PyErr.statisticsError
            | some avg => stepHeap s p avg) s = .ok s' ∧
        assocLookup cat s'.1 = some r ∧
        (∀ c ρ, c ≠ cat → assocLookup c s'.1 = some ρ → ρ ≠ r) ∧
        base ≤ s'.2.length ∧
        s'.2[r]? = s.2[r]? := by
  intro l
  induction l with
  | nil =>
    intro s _ _ h1 h2 h3 h4
    exact ⟨s, rfl, h1, h2, h4, rfl⟩
  | cons p l ih =>
    intro s hsub hnm h1 h2 h3 h4
    have hp2 : p.2 ≠ [] := hsub p (List.mem_cons_self p l)
    have hpcat : p.1 ≠ cat := by
      intro he
      exact hnm (he ▸ List.mem_map_of_mem Prod.fst (List.mem_cons_self p l))
    rw [List.foldlM_cons, category_average_of_ne_nil hp2]
    cases hlp : assocLookup p.1 s.1 with
    | some ρ =>
      have hρr : ρ ≠ r := h2 p.1 ρ hpcat hlp
      rw [show (match some (avgQ p.2) with
        | none => (Except.error PyErr.statisticsError :
            Except PyErr (List (PyStr × Nat) × List (List ℚ)))
        | some avg => stepHeap s p avg) = stepHeap s p (avgQ p.2) from rfl]
      rw [stepHeap_existing hlp, ok_bind]
      obtain ⟨s', hs', c1, c2, c3, c4⟩ := ih
        (s.1, s.2.set ρ (s.2.getD ρ [] ++ [round1 (avgQ p.2)]))
        (fun q hq => hsub q (List.mem_cons_of_mem p hq))
        (fun hm => hnm (List.mem_cons_of_mem _ hm)) h1 h2 h3
        (by rw [List.length_set]; exact h4)
      refine ⟨s', hs', c1, c2, c3, ?_⟩
      rw [c4]
      exact List.getElem?_set_ne hρr
    | none =>
      rw [show (match some (avgQ p.2) with
        | none => (Except.error PyErr.statisticsError :
            Except PyErr (List (PyStr × Nat) × List (List ℚ)))
        | some avg => stepHeap s p avg) = stepHeap s p (avgQ p.2) from rfl]
      rw [stepHeap_fresh hlp, ok_bind]
      have hlen : r ≠ s.2.length := by omega
      obtain ⟨s', hs', c1, c2, c3, c4⟩ := ih
        (assocSet p.1 s.2.length s.1, (s.2 ++ [[]]).set s.2.length [round1 (avgQ p.2)])
        (fun q hq => hsub q (List.mem_cons_of_mem p hq))
        (fun hm => hnm (List.mem_cons_of_mem _ hm))
        (by
          show assocLookup cat (assocSet p.1 s.2.length s.1) = some r
          rw [assocLookup_assocSet_ne (Ne.symm hpcat)]
          exact h1)
        (by
          intro c ρ hc hlc
          by_cases hcp : c = p.1
          · subst hcp
            rw [assocLookup_assocSet_self] at hlc
            injection hlc with hve
            omega
          · rw [assocLookup_assocSet_ne hcp] at hlc
            exact h2 c ρ hc hlc)
        h3
        (by
          show base ≤ ((s.2 ++ [[]]).set s.2.length [round1 (avgQ p.2)]).length
          rw [List.length_set, List.length_append]
          simp
          omega)
      refine ⟨s', hs', c1, c2, c3, ?_⟩
      rw [c4]
      show ((s.2 ++ [[]]).set s.2.length [round1 (avgQ p.2)])[r]? = s.2[r]?
      rw [List.getElem?_set_ne (Ne.symm hlen), List.getElem?_append_left (by omega)]

/-- The aliasing effect of `create_docx_report` (lines 117-129) on the
store: when `cat` is a key of both `prev_cat_history` (bound to cell `r`)
and the score matrix, the call appends the new rounded average to cell `r`
itself — the very list object held inside the caller's dict — while the
overall store is returned unchanged. -/
theorem create_docx_report_heap_hit
    {l1 l2 : List (PyStr × List (PyStr × ℤ))} {cat : PyStr}
    {sub : List (PyStr × ℤ)} {prev_cat_history : List (PyStr × Nat)}
    {r : Nat} {catStore : List (List ℚ)}
    (ovStore : List (List (PyStr × ℚ))) (r0 : Nat) (today : PyStr)
    (hsub : ∀ p ∈ l1 ++ (cat, sub) :: l2, p.2 ≠ [])
    (hnd : ((l1 ++ (cat, sub) :: l2).map Prod.fst).Nodup)
    (hr : assocLookup cat prev_cat_history = some r)
    (hinj : ∀ c ρ, c ≠ cat → assocLookup c prev_cat_history = some ρ → ρ ≠ r)
    (hrlt : r < catStore.length) :
    ∃ merged score,
      overallScore (l1 ++ (cat, sub) :: l2) = .ok score ∧
      create_docx_report_heap (l1 ++ (cat, sub) :: l2) prev_cat_history r0
          catStore ovStore today =
        .ok (merged, ovStore, ovStore.getD r0 [] ++ [(today, score)]) ∧
      merged.2[r]? = some (catStore.getD r [] ++ [round1 (avgQ sub)]) := by
  have hne : l1 ++ (cat, sub) :: l2 ≠ [] := by
    intro h
    rcases List.append_eq_nil.mp h with ⟨-, h2⟩
    exact List.cons_ne_nil _ _ h2
  have hscore := overallScore_ok hne hsub
  have hnm : cat ∉ l1.map Prod.fst ∧ cat ∉ l2.map Prod.fst := by
    rw [List.map_append, List.map_cons] at hnd
    have h2 := (List.nodup_cons.mp (List.nodup_middle.mp hnd)).1
    rw [List.mem_append] at h2
    exact ⟨fun h => h2 (Or.inl h), fun h => h2 (Or.inr h)⟩
  obtain ⟨s1, hs1, i1, i2, i3, i4⟩ :=
    mergeCatHeap_fold_preserve l1 (prev_cat_history, catStore)
      (fun p hp => hsub p (List.mem_append_left _ hp))
      hnm.1 hr hinj hrlt (le_refl _)
  have hcat2 : sub ≠ [] :=
    hsub (cat, sub) (List.mem_append_right _ (List.mem_cons_self _ _))
  obtain ⟨s', hs', j1, j2, j3, j4⟩ :=
    mergeCatHeap_fold_preserve l2
      (s1.1, s1.2.set r (s1.2.getD r [] ++ [round1 (avgQ sub)]))
      (fun p hp => hsub p (List.mem_append_right _ (List.mem_cons_of_mem _ hp)))
      hnm.2 i1 i2 hrlt (by rw [List.length_set]; exact i3)
  have hrlt1 : r < s1.2.length := lt_of_lt_of_le hrlt i3
  have hgd : s1.2.getD r [] = catStore.getD r [] := by
    rw [List.getD_eq_getElem?_getD, List.getD_eq_getElem?_getD, i4]
  have hcell : s'.2[r]? = some (catStore.getD r [] ++ [round1 (avgQ sub)]) := by
    rw [j4]
    show (s1.2.set r (s1.2.getD r [] ++ [round1 (avgQ sub)]))[r]? = _
    rw [List.getElem?_set_self hrlt1, hgd]
  have hmerge : mergeCatHeap (l1 ++ (cat, sub) :: l2) prev_cat_history catStore =
      .ok s' := by
    rw [mergeCatHeap, List.foldlM_append, hs1, ok_bind, List.foldlM_cons,
      category_average_of_ne_nil hcat2]
    have hred : (match some (avgQ sub) with
        | none => (Except.error PyErr.statisticsError :
            Except PyErr (List (PyStr × Nat) × List (List ℚ)))
        | some avg => stepHeap s1 (cat, sub) avg) =
        stepHeap s1 (cat, sub) (avgQ sub) := rfl
    rw [hred, @stepHeap_existing s1 (cat, sub) r i1 (avgQ sub), ok_bind, hs']
  refine ⟨s', _, hscore, ?_, hcell⟩
  rw [create_docx_report_heap, hmerge, ok_bind, hscore, ok_bind]

/-!
## Step invariants of the parser loop
-/

theorem parseStep_name_type {st st' : ParseSt} {para : PyStr}
    (h : parseStep st para = .ok st')
    (hinv : st.meta.player_name = none ↔ st.meta.player_type = none) :
    st'.meta.player_name = none ↔ st'.meta.player_type = none := by
  simp only [parseStep] at h
  split at h
  · simp only [headingStep] at h
    split at h
    · injection h with h
      subst h
      simp
    · exact Except.noConfusion h
  · split at h
    · simp only [bulletStep] at h
      split at h
      · injection h with h
        subst h
        exact hinv
      · exact Except.noConfusion h
    · split at h
      · injection h with h
        subst h
        exact hinv
      · split at h
        · simp only [dateStep] at h
          split at h
          · split at h
            · injection h with h
              subst h
              exact hinv
            · exact Except.noConfusion h
          · exact Except.noConfusion h
        · split at h
          · injection h with h
            subst h
            exact hinv
          · split at h
            · injection h with h
              subst h
              exact hinv
            · injection h with h
              subst h
              exact hinv

theorem parse_fold_name_type :
    ∀ (l : List PyStr) (st : ParseSt),
      (st.meta.player_name = none ↔ st.meta.player_type = none) →
      ∀ st', l.foldlM parseStep st = .ok st' →
      (st'.meta.player_name = none ↔ st'.meta.player_type = none) := by
  intro l
  induction l with
  | nil =>
    intro st hinv st' h
    have h2 : (Except.ok st : Except PyErr ParseSt) = .ok st' := h
    have h3 : st = st' := by injection h2
    exact h3 ▸ hinv
  | cons t ts ih =>
    intro st hinv st' h
    rw [List.foldlM_cons] at h
    cases hs : parseStep st t with
    | error e =>
      rw [hs] at h
      have h2 : (Except.error e : Except PyErr ParseSt) = .ok st' := h
      exact Except.noConfusion h2
    | ok st1 =>
      rw [hs, ok_bind] at h
      exact ih st1 (parseStep_name_type hs hinv) st' h

theorem parseStep_keeps_flag_off {st st' : ParseSt} {para : PyStr}
    (h : parseStep st para = .ok st')
    (hf : st.overall_header_seen = false)
    (hnh : pyStrip para ≠ overallHeaderLine) :
    st'.overall_header_seen = false ∧
      st'.meta.overall_history = st.meta.overall_history := by
  simp only [parseStep] at h
  split at h
  · simp only [headingStep] at h
    split at h
    · injection h with h
      subst h
      exact ⟨hf, rfl⟩
    · exact Except.noConfusion h
  · split at h
    · simp only [bulletStep] at h
      split at h
      · injection h with h
        subst h
        exact ⟨hf, rfl⟩
      · exact Except.noConfusion h
    · split at h
      · rename_i hcond
        have h1 := hcond.1
        rw [hf] at h1
        exact Bool.noConfusion h1
      · split at h
        · injection h with h
          subst h
          exact ⟨hf, rfl⟩
        · split at h
          · injection h with h
            subst h
            exact ⟨rfl, rfl⟩
          · injection h with h
            subst h
            exact ⟨hf, rfl⟩

theorem parse_fold_no_header :
    ∀ (l : List PyStr) (st : ParseSt),
      (∀ t ∈ l, pyStrip t ≠ overallHeaderLine) →
      st.overall_header_seen = false →
      ∀ st', l.foldlM parseStep st = .ok st' →
      st'.meta.overall_history = st.meta.overall_history := by
  intro l
  induction l with
  | nil =>
    intro st _ _ st' h
    have h2 : (Except.ok st : Except PyErr ParseSt) = .ok st' := h
    have h3 : st = st' := by injection h2
    exact h3 ▸ rfl
  | cons t ts ih =>
    intro st hnh hf st' h
    rw [List.foldlM_cons] at h
    cases hs : parseStep st t with
    | error e =>
      rw [hs] at h
      have h2 : (Except.error e : Except PyErr ParseSt) = .ok st' := h
      exact Except.noConfusion h2
    | ok st1 =>
      rw [hs, ok_bind] at h
      obtain ⟨hf1, hov1⟩ :=
        parseStep_keeps_flag_off hs hf (hnh t (List.mem_cons_self t ts))
      rw [ih st1 (fun q hq => hnh q (List.mem_cons_of_mem t hq)) hf1 st' h, hov1]

theorem parse_inert_fold :
    ∀ (paras : List PyStr),
      (∀ t ∈ paras, lineInert t) →
      paras.foldlM parseStep ⟨{}, false⟩ = .ok ⟨{}, false⟩ := by
  intro paras
  induction paras with
  | nil => intro _; rfl
  | cons t ts ih =>
    intro h
    rw [List.foldlM_cons]
    have hstep : parseStep ⟨{}, false⟩ t = .ok ⟨{}, false⟩ := by
      by_cases hb : pyStrip t = []
      · exact parseStep_blank ⟨{}, false⟩ t hb
      · rcases h t (List.mem_cons_self t ts) with hb' | ⟨h1, h2, h3, _⟩
        · exact absurd hb' hb
        · exact parseStep_skip ⟨{}, false⟩ t h1 h2 h3
            (fun hc => Bool.noConfusion hc.1) hb
    rw [hstep, ok_bind]
    exact ih (fun q hq => h q (List.mem_cons_of_mem t hq))

/-!
## The claims
-/

/-- Claim C1 (corrected: restricted round-trip). For every report record
satisfying the well-formedness side conditions, parsing the serialized
report recovers the merged overall history exactly and the merged category
history restricted to the categories of the current score matrix. The
unrestricted claim fails: a prior category absent from the matrix is not
serialized (see the counterexample). -/
theorem round_trip_of_serialized_report (player_name player_type : PyStr)
    (scores : List (PyStr × List (PyStr × ℤ)))
    (prev_cat : List (PyStr × List ℚ)) (prev_ov : List (PyStr × ℚ))
    (today time : PyStr)
    (hsne : scores ≠ [])
    (hsub : ∀ p ∈ scores, p.2 ≠ [])
    (hnd : (scores.map Prod.fst).Nodup)
    (hcats : ∀ p ∈ scores, ':' ∉ p.1 ∧ pyStrip p.1 = p.1)
    (hprev : ∀ p ∈ prev_cat, ∀ v ∈ p.2, Tenth v)
    (hov : ∀ p ∈ prev_ov, dateShaped p.1 = true ∧ Tenth p.2)
    (htoday : dateShaped today = true)
    (htime : timeOk time = true)
    (hname : '–' ∉ player_name) (hty : '–' ∉ player_type) :
    ∃ ch score L m,
      mergeCat prev_cat scores = .ok ch ∧
      overallScore scores = .ok score ∧
      create_docx_report player_name player_type scores prev_cat prev_ov today time
        = .ok L ∧
      parse_docx_report L = .ok m ∧
      m.category_history = scores.map (fun p => (p.1, (assocLookup p.1 ch).getD [])) ∧
      m.overall_history = prev_ov ++ [(today, score)] :=
  roundtrip_restricted player_name player_type scores prev_cat prev_ov today time
    hsne hsub hnd hcats hprev hov htoday htime hname hty

/-- Witness for claim C1 at a concrete record. -/
theorem round_trip_of_serialized_report_witness :
    exScores ≠ [] ∧
    (∀ p ∈ exScores, p.2 ≠ []) ∧
    (exScores.map Prod.fst).Nodup ∧
    (∀ p ∈ exScores, ':' ∉ p.1 ∧ pyStrip p.1 = p.1) ∧
    (∀ p ∈ exPrevCat, ∀ v ∈ p.2, Tenth v) ∧
    (∀ p ∈ exPrevOv, dateShaped p.1 = true ∧ Tenth p.2) ∧
    dateShaped (("2024-01-02").data) = true ∧
    timeOk (("10:00:00").data) = true ∧
    '–' ∉ (("N").data) ∧
    '–' ∉ (("T").data) ∧
    (∃ ch score L m,
      mergeCat exPrevCat exScores = .ok ch ∧
      overallScore exScores = .ok score ∧
      create_docx_report (("N").data) (("T").data) exScores exPrevCat exPrevOv
          (("2024-01-02").data) (("10:00:00").data) = .ok L ∧
      parse_docx_report L = .ok m ∧
      m.category_history =
        exScores.map (fun p => (p.1, (assocLookup p.1 ch).getD [])) ∧
      m.overall_history = exPrevOv ++ [((("2024-01-02").data), score)]) :=
  ⟨by decide, by decide, by decide, by decide, by decide, by decide, by decide,
   by decide, by decide, by decide,
   round_trip_of_serialized_report (("N").data) (("T").data) exScores exPrevCat
     exPrevOv (("2024-01-02").data) (("10:00:00").data)
     (by decide) (by decide) (by decide) (by decide) (by decide) (by decide)
     (by decide) (by decide) (by decide) (by decide)⟩

/-- Claim C1 counterexample: the merged category history keeps the prior
category `Old`, but serializing and re-parsing loses it — line 143 of the
source iterates over `scores.keys()` only, so the bullet for `Old` is never
written. -/
theorem round_trip_drops_absent_category :
    mergeCat [((("Old").data), [(50 : ℚ)])] exScores =
      .ok [((("Old").data), [(50 : ℚ)]), ((("A").data), [(80 : ℚ)])] ∧
    (create_docx_report (("N").data) (("T").data) exScores
        [((("Old").data), [(50 : ℚ)])] [] (("2024-01-02").data)
        (("10:00:00").data)
      >>= parse_docx_report).map ParsedMeta.category_history =
      .ok [((("A").data), [(80 : ℚ)])] := by
  decide

/-- Claim C2 (corrected). Only tokens that are empty after stripping are
silently dropped from a bullet value list; a non-numeric non-blank token
such as `oops` makes `float` raise ValueError and aborts the parse. -/
theorem bullet_token_policy :
    parse_docx_report [("• Judgment: 70.0;  ; 85.0").data] =
      .ok { category_history := [((("Judgment").data), [(70 : ℚ), 85])] } ∧
    parse_docx_report [("• Judgment: 70.0; oops; 85.0").data] =
      .error .valueError := by
  decide

/-- Claim C2 counterexample: the bullet line of the claim does not parse to
the claimed history — it raises instead. -/
theorem bullet_bad_token_is_error :
    parse_docx_report [("• Judgment: 70.0; oops; 85.0").data] ≠
      .ok { category_history := [((("Judgment").data), [(70 : ℚ), 85])] } := by
  decide

/-- Claim C3 (confirmed). The merge appends exactly one entry,
`round(avg, 1)`, to the history of each category of the score matrix
(creating the list if absent, so the new lookup is the old list extended
by one), leaves categories absent from the matrix with their lookup
unchanged, and the overall merge appends one dated entry to the unchanged
prior overall history. -/
theorem merge_append_only
    (scores : List (PyStr × List (PyStr × ℤ)))
    (prev : List (PyStr × List ℚ)) (prev_ov : List (PyStr × ℚ)) (today : PyStr)
    (hne : scores ≠ [])
    (hsub : ∀ p ∈ scores, p.2 ≠ [])
    (hnd : (scores.map Prod.fst).Nodup) :
    ∃ ch,
      mergeCat prev scores = .ok ch ∧
      (∀ q, q ∉ scores.map Prod.fst → assocLookup q ch = assocLookup q prev) ∧
      (∀ p ∈ scores,
        assocLookup p.1 ch =
          some ((assocLookup p.1 prev).getD [] ++ [round1 (avgQ p.2)])) ∧
      mergeOverall scores prev_ov today =
        .ok (prev_ov ++ [(today,
          round1 (qdiv (qsum (scores.map (fun p => avgQ p.2)))
            ((scores.length : ℤ) : ℚ)))]) := by
  obtain ⟨ch, hch, habs, hpres⟩ := mergeCat_ok scores prev hsub
  refine ⟨ch, hch, habs, hpres hnd, ?_⟩
  rw [mergeOverall, overallScore_ok hne hsub]
  rfl

/-- Witness for claim C3 at a concrete matrix and history. -/
theorem merge_append_only_witness :
    exScores ≠ [] ∧
    (∀ p ∈ exScores, p.2 ≠ []) ∧
    (exScores.map Prod.fst).Nodup ∧
    (∃ ch,
      mergeCat [((("A").data), [(50 : ℚ)]), ((("Old").data), [(30 : ℚ)])]
          exScores = .ok ch ∧
      (∀ q, q ∉ exScores.map Prod.fst →
        assocLookup q ch =
          assocLookup q
            [((("A").data), [(50 : ℚ)]), ((("Old").data), [(30 : ℚ)])]) ∧
      (∀ p ∈ exScores,
        assocLookup p.1 ch =
          some ((assocLookup p.1
              [((("A").data), [(50 : ℚ)]), ((("Old").data), [(30 : ℚ)])]).getD []
            ++ [round1 (avgQ p.2)])) ∧
      mergeOverall exScores exPrevOv (("2024-01-02").data) =
        .ok (exPrevOv ++ [((("2024-01-02").data),
          round1 (qdiv (qsum (exScores.map (fun p => avgQ p.2)))
            ((exScores.length : ℤ) : ℚ)))])) :=
  ⟨by decide, by decide, by decide,
   merge_append_only exScores
     [((("A").data), [(50 : ℚ)]), ((("Old").data), [(30 : ℚ)])]
     exPrevOv (("2024-01-02").data) (by decide) (by decide) (by decide)⟩

/-- Claim C4 (corrected). Parsing is not total — heading-shaped lines with
two dashes and bullet or date lines with non-numeric values raise (see the
counterexample) — but on documents whose lines are all inert (blank or
activating no state-changing branch) it returns a `ParsedMeta` with every
field empty. -/
theorem parse_total_on_inert_lines (paras : List PyStr)
    (h : ∀ t ∈ paras, lineInert t) :
    parse_docx_report paras = .ok {} := by
  show (paras.foldlM parseStep ⟨{}, false⟩).map ParseSt.meta = .ok {}
  rw [parse_inert_fold paras h]
  rfl

/-- Witness for claim C4 on a document of unrecognizable lines. -/
theorem parse_total_on_inert_lines_witness :
    (∀ t ∈ [("hello world").data, ([] : PyStr),
        ("Overall Rating: 50.0 / 120").data], lineInert t) ∧
    parse_docx_report [("hello world").data, ([] : PyStr),
        ("Overall Rating: 50.0 / 120").data] = .ok {} :=
  ⟨by decide,
   parse_total_on_inert_lines
     [("hello world").data, ([] : PyStr), ("Overall Rating: 50.0 / 120").data]
     (by decide)⟩

/-- Claim C4 counterexample: three malformed inputs on which
`parse_docx_report` raises ValueError instead of returning a `ParsedMeta` —
a heading-shaped line with two dashes (line 90: unpacking a 3-way split), a
bullet with a non-numeric value (line 96), and a date line with a
non-numeric value (line 102). -/
theorem parse_raises_on_malformed :
    parse_docx_report [("A – B – C Stats Report").data] = .error .valueError ∧
    parse_docx_report [("• X: nope").data] = .error .valueError ∧
    parse_docx_report
      [("Overall Ratings by Date:").data, ("2024-01-02: oops").data] =
      .error .valueError := by
  decide

/-- Claim C5 (corrected). `category_average` has no capping mode: it is the
plain mean of the sub-scores, so `{A:10, B:20, C:30}` averages to `20` and
`{A:150}` averages to `150`, above the supposed cap. -/
theorem category_average_uncapped :
    category_average [((("A").data), (10 : ℤ)), ((("B").data), (20 : ℤ)),
        ((("C").data), (30 : ℤ))] = some 20 ∧
    category_average [((("A").data), (150 : ℤ))] = some 150 := by
  decide

/-- Claim C5 counterexample: with the single sub-score `150` the average is
`150`, not the claimed capped value `100`. -/
theorem category_average_no_capping :
    category_average [((("A").data), (150 : ℤ))] = some 150 ∧
    (150 : ℚ) ≠ 100 := by
  decide

/-- Claim C6 (confirmed). The merged overall entry is the rounded mean of
the category averages of the current evaluation only, appended to the prior
overall history paired with today. -/
theorem overall_from_current_averages
    (scores : List (PyStr × List (PyStr × ℤ)))
    (prev_ov : List (PyStr × ℚ)) (today : PyStr)
    (hne : scores ≠ []) (hsub : ∀ p ∈ scores, p.2 ≠ []) :
    mergeOverall scores prev_ov today =
      .ok (prev_ov ++ [(today,
        round1 (qdiv (qsum (scores.map (fun p => avgQ p.2)))
          ((scores.length : ℤ) : ℚ)))]) := by
  rw [mergeOverall, overallScore_ok hne hsub]
  rfl

/-- Witness for claim C6: three categories with averages 80, 90 and 70 give
overall rating 80. -/
theorem overall_from_current_averages_witness :
    exScores3 ≠ [] ∧
    (∀ p ∈ exScores3, p.2 ≠ []) ∧
    mergeOverall exScores3 [] (("2024-01-01").data) =
      .ok ([] ++ [((("2024-01-01").data),
        round1 (qdiv (qsum (exScores3.map (fun p => avgQ p.2)))
          ((exScores3.length : ℤ) : ℚ)))]) ∧
    round1 (qdiv (qsum (exScores3.map (fun p => avgQ p.2)))
      ((exScores3.length : ℤ) : ℚ)) = 80 :=
  ⟨by decide, by decide,
   overall_from_current_averages exScores3 [] (("2024-01-01").data)
     (by decide) (by decide),
   by decide⟩

/-- Claim C7 (confirmed). Averaging the empty sub-score dict yields the
distinguishable StatisticsError signal, never a silent zero or NaN, and the
overall-rating mean over an empty score matrix fails the same way. -/
theorem empty_average_is_error :
    category_average [] = none ∧
    overallScore [] = .error .statisticsError ∧
    ∀ (prev_ov : List (PyStr × ℚ)) (today : PyStr),
      mergeOverall [] prev_ov today = .error .statisticsError :=
  ⟨rfl, rfl, fun _ _ => rfl⟩

/-- Claim C8 (confirmed). A blank line clears the overall-block flag, so if
no line after it is the `Overall Ratings by Date:` header, the parsed
overall history is exactly whatever the prefix before the blank produced —
no later date-shaped line is captured. -/
theorem blank_line_closes_overall_block (l1 l2 : List PyStr) (b : PyStr)
    (m : ParsedMeta)
    (hb : pyStrip b = [])
    (hnh : ∀ t ∈ l2, pyStrip t ≠ overallHeaderLine)
    (hok : parse_docx_report (l1 ++ b :: l2) = .ok m) :
    ∃ st1, l1.foldlM parseStep ⟨{}, false⟩ = .ok st1 ∧
      m.overall_history = st1.meta.overall_history := by
  have hok2 : ((l1 ++ b :: l2).foldlM parseStep ⟨{}, false⟩).map ParseSt.meta
      = .ok m := hok
  cases hf : (l1 ++ b :: l2).foldlM parseStep (⟨{}, false⟩ : ParseSt) with
  | error e =>
    rw [hf] at hok2
    have h2 : (Except.error e : Except PyErr ParsedMeta) = .ok m := hok2
    exact Except.noConfusion h2
  | ok stf =>
    rw [hf] at hok2
    have hm : stf.meta = m := by
      have h2 : (Except.ok stf.meta : Except PyErr ParsedMeta) = .ok m := hok2
      injection h2
    rw [List.foldlM_append] at hf
    cases h1 : l1.foldlM parseStep (⟨{}, false⟩ : ParseSt) with
    | error e =>
      rw [h1] at hf
      have h2 : (Except.error e : Except PyErr ParseSt) = .ok stf := hf
      exact Except.noConfusion h2
    | ok st1 =>
      rw [h1, ok_bind, List.foldlM_cons, parseStep_blank st1 b hb, ok_bind] at hf
      refine ⟨st1, rfl, ?_⟩
      rw [← hm,
        parse_fold_no_header l2 { st1 with overall_header_seen := false }
          hnh rfl stf hf]

/-- Witness for claim C8: one date entry before the blank is kept, the
date-shaped line after the blank is not captured. -/
theorem blank_line_closes_overall_block_witness :
    pyStrip ([] : PyStr) = [] ∧
    (∀ t ∈ [("2024-01-02: 70.0").data], pyStrip t ≠ overallHeaderLine) ∧
    parse_docx_report
      ([("Overall Ratings by Date:").data, ("2024-01-01: 60.0").data] ++
        ([] : PyStr) :: [("2024-01-02: 70.0").data]) =
      .ok { overall_history := [((("2024-01-01").data), (60 : ℚ))] } ∧
    (∃ st1, [("Overall Ratings by Date:").data,
        ("2024-01-01: 60.0").data].foldlM parseStep ⟨{}, false⟩ = .ok st1 ∧
      ({ overall_history := [((("2024-01-01").data), (60 : ℚ))] } :
          ParsedMeta).overall_history = st1.meta.overall_history) :=
  ⟨by decide, by decide, by decide,
   blank_line_closes_overall_block
     [("Overall Ratings by Date:").data, ("2024-01-01: 60.0").data]
     [("2024-01-02: 70.0").data] ([] : PyStr)
     { overall_history := [((("2024-01-01").data), (60 : ℚ))] }
     (by decide) (by decide) (by decide)⟩

/-- Claim C9 (confirmed, on the explicit-store model). When the score
matrix contains a category `cat` that the shallow-copied prior dict binds
to store cell `r`, `create_docx_report` appends the new rounded average to
cell `r` itself — the very list object the caller still holds — while the
overall store is returned unchanged and the merged overall history is
built from a copy. -/
theorem shallow_copy_alias_append
    {l1 l2 : List (PyStr × List (PyStr × ℤ))} {cat : PyStr}
    {sub : List (PyStr × ℤ)} {prev_cat_history : List (PyStr × Nat)}
    {r : Nat} {catStore : List (List ℚ)}
    (ovStore : List (List (PyStr × ℚ))) (r0 : Nat) (today : PyStr)
    (hsub : ∀ p ∈ l1 ++ (cat, sub) :: l2, p.2 ≠ [])
    (hnd : ((l1 ++ (cat, sub) :: l2).map Prod.fst).Nodup)
    (hr : assocLookup cat prev_cat_history = some r)
    (hinj : ∀ q ∈ prev_cat_history, q.1 ≠ cat → q.2 ≠ r)
    (hrlt : r < catStore.length) :
    ∃ merged score,
      overallScore (l1 ++ (cat, sub) :: l2) = .ok score ∧
      create_docx_report_heap (l1 ++ (cat, sub) :: l2) prev_cat_history r0
          catStore ovStore today =
        .ok (merged, ovStore, ovStore.getD r0 [] ++ [(today, score)]) ∧
      merged.2[r]? = some (catStore.getD r [] ++ [round1 (avgQ sub)]) := by
  refine create_docx_report_heap_hit ovStore r0 today hsub hnd hr ?_ hrlt
  intro c ρ hc hl
  exact hinj (c, ρ) (assocLookup_mem hl) hc

/-- Witness for claim C9 at a concrete store. -/
theorem shallow_copy_alias_append_witness :
    (∀ p ∈ ([] : List (PyStr × List (PyStr × ℤ))) ++
        ((("A").data), [((("x").data), (80 : ℤ))]) :: [], p.2 ≠ []) ∧
    ((([] : List (PyStr × List (PyStr × ℤ))) ++
        ((("A").data), [((("x").data), (80 : ℤ))]) :: []).map Prod.fst).Nodup ∧
    assocLookup (("A").data) [((("A").data), 0)] = some 0 ∧
    (∀ q ∈ [((("A").data), 0)], q.1 ≠ (("A").data) → q.2 ≠ 0) ∧
    0 < ([[(50 : ℚ)]] : List (List ℚ)).length ∧
    (∃ merged score,
      overallScore (([] : List (PyStr × List (PyStr × ℤ))) ++
        ((("A").data), [((("x").data), (80 : ℤ))]) :: []) = .ok score ∧
      create_docx_report_heap
          (([] : List (PyStr × List (PyStr × ℤ))) ++
            ((("A").data), [((("x").data), (80 : ℤ))]) :: [])
          [((("A").data), 0)] 0 [[(50 : ℚ)]]
          [[((("2024-01-01").data), (60 : ℚ))]] (("2024-01-02").data) =
        .ok (merged, [[((("2024-01-01").data), (60 : ℚ))]],
          ([[((("2024-01-01").data), (60 : ℚ))]] :
            List (List (PyStr × ℚ))).getD 0 [] ++
            [((("2024-01-02").data), score)]) ∧
      merged.2[0]? =
        some (([[(50 : ℚ)]] : List (List ℚ)).getD 0 [] ++
          [round1 (avgQ [((("x").data), (80 : ℤ))])])) :=
  ⟨by decide, by decide, by decide, by decide, by decide,
   @shallow_copy_alias_append [] [] (("A").data) [((("x").data), (80 : ℤ))]
     [((("A").data), 0)] 0 [[(50 : ℚ)]]
     [[((("2024-01-01").data), (60 : ℚ))]] 0 (("2024-01-02").data)
     (by decide) (by decide) (by decide) (by decide) (by decide)⟩

/-- Claim C10 (confirmed). In every `ParsedMeta` the parser returns, the
player name and player type are `none` together: both start as `none` and
only the heading branch assigns them, and it assigns both. -/
theorem name_type_set_together (paras : List PyStr) (m : ParsedMeta)
    (h : parse_docx_report paras = .ok m) :
    (m.player_name = none ↔ m.player_type = none) := by
  have h2 : (paras.foldlM parseStep ⟨{}, false⟩).map ParseSt.meta = .ok m := h
  cases hf : paras.foldlM parseStep (⟨{}, false⟩ : ParseSt) with
  | error e =>
    rw [hf] at h2
    have h3 : (Except.error e : Except PyErr ParsedMeta) = .ok m := h2
    exact Except.noConfusion h3
  | ok st' =>
    rw [hf] at h2
    have h3 : (Except.ok st'.meta : Except PyErr ParsedMeta) = .ok m := h2
    have hm : st'.meta = m := by injection h3
    exact hm ▸ parse_fold_name_type paras ⟨{}, false⟩ Iff.rfl st' hf

/-- Witness for claim C10 on a parsed heading. -/
theorem name_type_set_together_witness :
    parse_docx_report [("N – T Stats Report").data] = .ok exMetaNT ∧
    (exMetaNT.player_name = none ↔ exMetaNT.player_type = none) :=
  ⟨by decide,
   name_type_set_together [("N – T Stats Report").data] exMetaNT (by decide)⟩
